import Mathlib

set_option linter.unusedVariables false

/- Shallow embedding of src/src/LinuxTracing/PerfEventQueue.h (class PerfEventQueue).
   The header declares the public interface (PushEvent, HasEvent, TopEvent, PopEvent),
   the two heap-restructuring helpers (MoveDownFrontOfHeapOfQueues,
   MoveUpBackOfHeapOfQueues), the three member containers and the fallback
   comparator kPerfEventReverseTimestampCompare.  The method bodies are not part of
   the given sources, so they are modelled from the spec (sections 4.1-4.3): binary
   array-heaps with sift-up-from-back and sift-down-from-front, a registry mapping a
   file descriptor to its FIFO queue of events, and a fallback min-heap by timestamp
   for events not ordered within their ring buffer. -/

namespace orbit_linux_tracing

/-- One perf_event_open record as seen by the queue.  The engine only inspects the
timestamp, the originating ring-buffer file descriptor, and the classification of the
record kind as ordered within its ring buffer or not; `payload` stands for the rest
of the record content, which the engine never inspects. -/
structure PerfEvent where
  timestamp : Nat
  origin : Nat
  ordered : Bool
  payload : Nat
deriving DecidableEq, Inhabited

/-- Swap of two positions of a list: the primitive move of an array-heap. -/
def swapNodes [Inhabited α] (l : List α) (i j : Nat) : List α :=
  (l.set i (l.getD j default)).set j (l.getD i default)

/-- Min-heap property of an array-heap stored in a list: every non-root node's key is
at least its parent's key.  The children of node `i` sit at `2*i+1` and `2*i+2`, so
the parent of node `j` is `(j-1)/2`. -/
def IsHeap [Inhabited α] (k : α → Nat) (l : List α) : Prop :=
  ∀ j, 0 < j → j < l.length → k (l.getD ((j - 1) / 2) default) ≤ k (l.getD j default)

/-- Modelled from the spec: sift-up-from-back (the body of MoveUpBackOfHeapOfQueues is
not among the sources).  Swaps the entry at `i` upward while its parent's key is
greater.  `fuel` bounds the number of steps; `i` strictly decreases, so any
`fuel ≥ i` is enough. -/
def siftUp [Inhabited α] (k : α → Nat) : Nat → List α → Nat → List α
  | 0, l, _ => l
  | fuel + 1, l, i =>
    if i = 0 then l
    else
      if k (l.getD i default) < k (l.getD ((i - 1) / 2) default) then
        siftUp k fuel (swapNodes l ((i - 1) / 2) i) ((i - 1) / 2)
      else l

/-- Modelled from the spec: sift-down-from-front (the body of
MoveDownFrontOfHeapOfQueues is not among the sources).  Compares the two children of
node `i`, picks the smaller-keyed one — the left child on a tie, so the tie-break is
deterministic — swaps it with node `i` if its key is smaller, and repeats. -/
def siftDown [Inhabited α] (k : α → Nat) : Nat → List α → Nat → List α
  | 0, l, _ => l
  | fuel + 1, l, i =>
    if 2 * i + 1 < l.length then
      let c :=
        if 2 * i + 2 < l.length ∧
            k (l.getD (2 * i + 2) default) < k (l.getD (2 * i + 1) default) then
          2 * i + 2
        else 2 * i + 1
      if k (l.getD c default) < k (l.getD i default) then
        siftDown k fuel (swapNodes l i c) c
      else l
    else l

/-- Modelled from the spec: heap insertion appends the new entry at the back of the
array and sifts it up. -/
def heapPush [Inhabited α] (k : α → Nat) (l : List α) (x : α) : List α :=
  siftUp k l.length (l ++ [x]) l.length

/-- Modelled from the spec: array-heap root removal swaps the root with the last
element, shrinks the array by one, then sifts down from the root. -/
def heapPopRoot [Inhabited α] (k : α → Nat) (l : List α) : List α :=
  match l with
  | [] => []
  | _ :: _ =>
    let l' := (swapNodes l 0 (l.length - 1)).dropLast
    siftDown k l'.length l' 0

/-- All parent-child edges of the array-heap hold, except possibly the edge into
node `i`. -/
def UpExceptA [Inhabited α] (k : α → Nat) (l : List α) (i : Nat) : Prop :=
  ∀ j, 0 < j → j < l.length → j ≠ i →
    k (l.getD ((j - 1) / 2) default) ≤ k (l.getD j default)

/-- Bridge invariant for sift-up: the parent of node `i` already bounds the children
of node `i`. -/
def UpExceptB [Inhabited α] (k : α → Nat) (l : List α) (i : Nat) : Prop :=
  ∀ c, 0 < c → c < l.length → (c - 1) / 2 = i → 0 < i →
    k (l.getD ((i - 1) / 2) default) ≤ k (l.getD c default)

/-- All parent-child edges of the array-heap hold, except possibly the edges leaving
node `i` (into its children). -/
def DownExceptA [Inhabited α] (k : α → Nat) (l : List α) (i : Nat) : Prop :=
  ∀ j, 0 < j → j < l.length → (j - 1) / 2 ≠ i →
    k (l.getD ((j - 1) / 2) default) ≤ k (l.getD j default)

/-- Bridge invariant for sift-down: the parent of node `i` already bounds the
children of node `i`. -/
def DownExceptB [Inhabited α] (k : α → Nat) (l : List α) (i : Nat) : Prop :=
  0 < i → ∀ c, 0 < c → c < l.length → (c - 1) / 2 = i →
    k (l.getD ((i - 1) / 2) default) ≤ k (l.getD c default)

/-- The comparator from the header (kPerfEventReverseTimestampCompare): lhs sorts
after rhs iff lhs's timestamp is greater, so the fallback priority queue surfaces the
smallest timestamp first. -/
def kPerfEventReverseTimestampCompare (lhs rhs : PerfEvent) : Bool :=
  decide (lhs.timestamp > rhs.timestamp)

/-- Lookup in the registry association list (flat_hash_map find). -/
def findQueue : List (Nat × List PerfEvent) → Nat → Option (List PerfEvent)
  | [], _ => none
  | (fd0, q0) :: rest, fd => if fd0 = fd then some q0 else findQueue rest fd

/-- Update-or-insert in the registry association list (operator[] assignment). -/
def setQueue : List (Nat × List PerfEvent) → Nat → List PerfEvent →
    List (Nat × List PerfEvent)
  | [], fd, q => [(fd, q)]
  | (fd0, q0) :: rest, fd, q =>
    if fd0 = fd then (fd, q) :: rest else (fd0, q0) :: setQueue rest fd q

/-- Erasure from the registry association list (flat_hash_map erase). -/
def eraseQueue : List (Nat × List PerfEvent) → Nat → List (Nat × List PerfEvent)
  | [], _ => []
  | (fd0, q0) :: rest, fd =>
    if fd0 = fd then rest else (fd0, q0) :: eraseQueue rest fd

/-- Heap key of a source: the timestamp of the front record of its queue (the heap
of queues is ordered by front-of-queue timestamp).  Sources without a pending record
never sit in the heap, so their key value is irrelevant. -/
def frontKey (queues : List (Nat × List PerfEvent)) (fd : Nat) : Nat :=
  match findQueue queues fd with
  | some (e :: _) => e.timestamp
  | _ => 0

/-- The state of class PerfEventQueue: the three member containers of the header.
The heap of queues stores, per active source, the identifying file descriptor (the
C++ heap stores a pointer to the source's queue; the registry map owns the queues,
so a file descriptor is the faithful handle). -/
structure PerfEventQueue where
  heap_of_queues_of_events_ordered_by_fd_ : List Nat
  queues_of_events_ordered_by_fd_ : List (Nat × List PerfEvent)
  priority_queue_of_events_not_ordered_by_fd_ : List PerfEvent
deriving DecidableEq, Inhabited

/-- Modelled from the spec (4.3 push; the body of PushEvent is not among the
sources): an event ordered within its fd goes to the back of its source's queue,
which is created on first use; if the queue was empty the source enters the heap of
queues at the back and sifts up.  An event not ordered within its fd goes into the
fallback priority queue, a min-heap by timestamp per
kPerfEventReverseTimestampCompare. -/
def PushEvent (s : PerfEventQueue) (event : PerfEvent) : PerfEventQueue :=
  if event.ordered then
    let q := (findQueue s.queues_of_events_ordered_by_fd_ event.origin).getD []
    let registry' := setQueue s.queues_of_events_ordered_by_fd_ event.origin
      (q ++ [event])
    if q.isEmpty then
      { s with
        queues_of_events_ordered_by_fd_ := registry',
        heap_of_queues_of_events_ordered_by_fd_ :=
          heapPush (frontKey registry')
            s.heap_of_queues_of_events_ordered_by_fd_ event.origin }
    else
      { s with queues_of_events_ordered_by_fd_ := registry' }
  else
    { s with
      priority_queue_of_events_not_ordered_by_fd_ :=
        heapPush PerfEvent.timestamp
          s.priority_queue_of_events_not_ordered_by_fd_ event }

/-- Modelled from the spec (4.3 has_pending): true iff the heap of queues or the
fallback priority queue is non-empty. -/
def HasEvent (s : PerfEventQueue) : Bool :=
  !s.heap_of_queues_of_events_ordered_by_fd_.isEmpty ||
    !s.priority_queue_of_events_not_ordered_by_fd_.isEmpty

/-- Front record of the queue named by the root of the heap of queues, if any. -/
def topOrdered (s : PerfEventQueue) : Option PerfEvent :=
  match s.heap_of_queues_of_events_ordered_by_fd_ with
  | [] => none
  | fd :: _ =>
    match findQueue s.queues_of_events_ordered_by_fd_ fd with
    | some (e :: _) => some e
    | _ => none

/-- Modelled from the spec (4.3 peek; the body of TopEvent is not among the
sources): compares the front record of the root source, if any, against the fallback
root, if any; returns a view of whichever has the smaller timestamp, the trusted
side winning ties (the spec leaves the tie policy open, requires it to be fixed and
deterministic, and recommends trusted-first).  Fails (returns none) exactly when no
record is pending; never mutates the state, so the state component of the result is
the input state in every branch. -/
def TopEvent (s : PerfEventQueue) : Option PerfEvent × PerfEventQueue :=
  match topOrdered s, s.priority_queue_of_events_not_ordered_by_fd_ with
  | none, [] => (none, s)
  | some e, [] => (some e, s)
  | none, u :: _ => (some u, s)
  | some e, u :: _ =>
    if u.timestamp < e.timestamp then (some u, s) else (some e, s)

/-- Modelled from the spec (4.3 pop, trusted side): remove the front record of the
root source's queue; if the queue became empty, erase it from the registry and
remove its heap entry (root removal), otherwise the root's key changed, so sift down
from the front. -/
def popFromOrdered (s : PerfEventQueue) : PerfEventQueue :=
  match s.heap_of_queues_of_events_ordered_by_fd_ with
  | [] => s
  | fd :: _ =>
    match findQueue s.queues_of_events_ordered_by_fd_ fd with
    | some (_ :: rest) =>
      if rest.isEmpty then
        let registry' := eraseQueue s.queues_of_events_ordered_by_fd_ fd
        { s with
          queues_of_events_ordered_by_fd_ := registry',
          heap_of_queues_of_events_ordered_by_fd_ :=
            heapPopRoot (frontKey registry')
              s.heap_of_queues_of_events_ordered_by_fd_ }
      else
        let registry' := setQueue s.queues_of_events_ordered_by_fd_ fd rest
        { s with
          queues_of_events_ordered_by_fd_ := registry',
          heap_of_queues_of_events_ordered_by_fd_ :=
            siftDown (frontKey registry')
              s.heap_of_queues_of_events_ordered_by_fd_.length
              s.heap_of_queues_of_events_ordered_by_fd_ 0 }
    | _ => s

/-- Modelled from the spec (4.3 pop; the body of PopEvent is not among the sources):
fails under the same condition as peek, determines the winning side by the same
comparison as peek, removes the winning record from its structure and returns it. -/
def PopEvent (s : PerfEventQueue) : Option PerfEvent × PerfEventQueue :=
  match topOrdered s, s.priority_queue_of_events_not_ordered_by_fd_ with
  | none, [] => (none, s)
  | some e, [] => (some e, popFromOrdered s)
  | none, u :: _ =>
    (some u,
      { s with
        priority_queue_of_events_not_ordered_by_fd_ :=
          heapPopRoot PerfEvent.timestamp
            s.priority_queue_of_events_not_ordered_by_fd_ })
  | some e, u :: _ =>
    if u.timestamp < e.timestamp then
      (some u,
        { s with
          priority_queue_of_events_not_ordered_by_fd_ :=
            heapPopRoot PerfEvent.timestamp
              s.priority_queue_of_events_not_ordered_by_fd_ })
    else (some e, popFromOrdered s)

/-- The freshly constructed queue: all three containers empty. -/
def initQueue : PerfEventQueue := ⟨[], [], []⟩

/-- Every record currently owned by the engine: the concatenation of all per-source
queues and the fallback priority queue. -/
def allEvents (s : PerfEventQueue) : List PerfEvent :=
  (s.queues_of_events_ordered_by_fd_.map Prod.snd).flatten ++
    s.priority_queue_of_events_not_ordered_by_fd_

/-- Push a list of events in order. -/
def pushAll (s : PerfEventQueue) (es : List PerfEvent) : PerfEventQueue :=
  es.foldl PushEvent s

/-- States reachable from the freshly constructed queue through the public
interface. -/
inductive Reachable : PerfEventQueue → Prop where
  | init : Reachable initQueue
  | push {s : PerfEventQueue} (e : PerfEvent) : Reachable s → Reachable (PushEvent s e)
  | pop {s : PerfEventQueue} : Reachable s → Reachable (PopEvent s).2

/-- Timestamp order on records. -/
def tsLE (a b : PerfEvent) : Prop := a.timestamp ≤ b.timestamp

instance : IsTrans PerfEvent tsLE :=
  ⟨fun _ _ _ h1 h2 => Nat.le_trans h1 h2⟩

instance (a b : PerfEvent) : Decidable (tsLE a b) :=
  Nat.decLe a.timestamp b.timestamp

/-- The structural invariant of the engine (spec section 3, I1-I4): registry keys
are distinct; registered queues are non-empty, hold only events of their own source
that are ordered within their fd; the fallback queue holds only events not ordered
within their fd; the heap of queues holds exactly the registered file descriptors
and satisfies the heap property for the front-of-queue timestamp keys; the fallback
priority queue satisfies the heap property for the timestamp key. -/
structure Inv (s : PerfEventQueue) : Prop where
  nodup : (s.queues_of_events_ordered_by_fd_.map Prod.fst).Nodup
  qne : ∀ p ∈ s.queues_of_events_ordered_by_fd_, p.2 ≠ []
  qmatch : ∀ p ∈ s.queues_of_events_ordered_by_fd_, ∀ e ∈ p.2,
    e.origin = p.1 ∧ e.ordered = true
  pqun : ∀ e ∈ s.priority_queue_of_events_not_ordered_by_fd_, e.ordered = false
  hperm : s.heap_of_queues_of_events_ordered_by_fd_.Perm
    (s.queues_of_events_ordered_by_fd_.map Prod.fst)
  hheap : IsHeap (frontKey s.queues_of_events_ordered_by_fd_)
    s.heap_of_queues_of_events_ordered_by_fd_
  pqheap : IsHeap PerfEvent.timestamp s.priority_queue_of_events_not_ordered_by_fd_

/-- Sortedness of every per-source queue, the upstream guarantee for trusted
sources. -/
def QueuesSorted (s : PerfEventQueue) : Prop :=
  ∀ p ∈ s.queues_of_events_ordered_by_fd_, List.Pairwise tsLE p.2

/-- A client interaction with the engine: a push of a given record, or a pop. -/
inductive EngineOp where
  | push (e : PerfEvent)
  | pop
deriving DecidableEq

/-- Run a list of operations from a state; returns the final state and the list of
records returned by the successful pops, in order. -/
def runOps : PerfEventQueue → List EngineOp → PerfEventQueue × List PerfEvent
  | s, [] => (s, [])
  | s, EngineOp.push e :: rest => runOps (PushEvent s e) rest
  | s, EngineOp.pop :: rest =>
    match PopEvent s with
    | (none, s') => runOps s' rest
    | (some e, s') =>
      let r := runOps s' rest
      (r.1, e :: r.2)

/-- The records pushed by a list of operations, in order. -/
def pushesOf (ops : List EngineOp) : List PerfEvent :=
  ops.filterMap (fun op =>
    match op with
    | EngineOp.push e => some e
    | EngineOp.pop => none)

/-- The upstream ordering guarantee: for every source, the records pushed from that
source as ordered-within-fd records carry non-decreasing timestamps.  Records not
ordered within their fd are unconstrained. -/
def SrcMonotone (es : List PerfEvent) : Prop :=
  ∀ f : Nat, List.Pairwise tsLE
    (es.filter (fun e => e.ordered && e.origin == f))

/-- Pop repeatedly, at most `fuel` times, stopping at the first failed pop; returns
the popped records in order and the final state. -/
def drainLoop : Nat → PerfEventQueue → List PerfEvent × PerfEventQueue
  | 0, s => ([], s)
  | fuel + 1, s =>
    match PopEvent s with
    | (none, _) => ([], s)
    | (some e, s') =>
      let r := drainLoop fuel s'
      (e :: r.1, r.2)

/-- Drain the engine completely: one pop attempt per owned record. -/
def drainAll (s : PerfEventQueue) : List PerfEvent × PerfEventQueue :=
  drainLoop (allEvents s).length s

/-- The pending records of one source, oldest first (empty for an unknown
source). -/
def queueContents (s : PerfEventQueue) (fd : Nat) : List PerfEvent :=
  (findQueue s.queues_of_events_ordered_by_fd_ fd).getD []

theorem length_swapNodes [Inhabited α] (l : List α) (i j : Nat) :
    (swapNodes l i j).length = l.length := by
  simp [swapNodes]

theorem set_getD_self [Inhabited α] (l : List α) {i : Nat} (hi : i < l.length) :
    l.set i (l.getD i default) = l := by
  apply List.ext_getElem?
  intro m
  by_cases hmi : m = i
  · subst hmi
    rw [List.getElem?_set_self hi, List.getD_eq_getElem?_getD,
      List.getElem?_eq_getElem hi]
    rfl
  · rw [List.getElem?_set_ne (fun h => hmi h.symm)]

theorem swapNodes_self [Inhabited α] (l : List α) {i : Nat} (hi : i < l.length) :
    swapNodes l i i = l := by
  rw [swapNodes, List.set_set, set_getD_self l hi]

theorem getD_swapNodes_fst [Inhabited α] (l : List α) {i j : Nat}
    (hi : i < l.length) (hj : j < l.length) :
    (swapNodes l i j).getD i default = l.getD j default := by
  by_cases hij : i = j
  · subst hij
    rw [swapNodes_self l hi]
  · rw [swapNodes, List.getD_eq_getElem?_getD,
      List.getElem?_set_ne (fun h => hij h.symm),
      List.getElem?_set_self hi]
    rfl

theorem getD_swapNodes_snd [Inhabited α] (l : List α) {i j : Nat}
    (hj : j < l.length) :
    (swapNodes l i j).getD j default = l.getD i default := by
  rw [swapNodes, List.getD_eq_getElem?_getD, List.getElem?_set_self (by simpa using hj)]
  rfl

theorem getD_swapNodes_other [Inhabited α] (l : List α) {i j m : Nat}
    (hmi : m ≠ i) (hmj : m ≠ j) :
    (swapNodes l i j).getD m default = l.getD m default := by
  rw [swapNodes, List.getD_eq_getElem?_getD,
    List.getElem?_set_ne (fun h => hmj h.symm),
    List.getElem?_set_ne (fun h => hmi h.symm),
    List.getD_eq_getElem?_getD]

theorem getD_eq_getElem_of_lt [Inhabited α] (l : List α) {i : Nat} (hi : i < l.length) :
    l.getD i default = l[i] := by
  rw [List.getD_eq_getElem?_getD, List.getElem?_eq_getElem hi]
  rfl

theorem perm_swapNodes [Inhabited α] [DecidableEq α] (l : List α) {i j : Nat}
    (hi : i < l.length) (hj : j < l.length) :
    (swapNodes l i j).Perm l := by
  by_cases hij : i = j
  · subst hij
    rw [swapNodes_self l hi]
  · rw [List.perm_iff_count]
    intro a
    have hj' : j < (l.set i (l.getD j default)).length := by simpa using hj
    rw [swapNodes, List.count_set _ _ _ _ hj', List.count_set _ _ _ _ hi]
    have hgj2 : (l.set i (l.getD j default))[j] = l[j] := by
      have hq : (l.set i (l.getD j default))[j]? = l[j]? :=
        List.getElem?_set_ne hij
      have h2 : (l.set i (l.getD j default))[j]? =
          some ((l.set i (l.getD j default))[j]) :=
        List.getElem?_eq_getElem hj'
      rw [hq, List.getElem?_eq_getElem hj] at h2
      exact (Option.some_injective _ h2).symm
    have hgjD : l.getD j default = l[j] := getD_eq_getElem_of_lt l hj
    have hgiD : l.getD i default = l[i] := getD_eq_getElem_of_lt l hi
    rw [hgj2, hgjD, hgiD]
    have hc : l[i] = a → 1 ≤ List.count a l := by
      intro h
      apply List.count_pos_iff.mpr
      rw [← h]
      exact l.getElem_mem hi
    by_cases h1 : l[i] = a <;> by_cases h2 : l[j] = a <;>
      (try have hx := hc h1) <;> simp [h1, h2] <;> omega

theorem length_siftUp [Inhabited α] (k : α → Nat) (fuel : Nat) :
    ∀ (l : List α) (i : Nat), (siftUp k fuel l i).length = l.length := by
  induction fuel with
  | zero => intro l i; rfl
  | succ fuel ih =>
    intro l i
    rw [siftUp]
    by_cases h0 : i = 0
    · simp [h0]
    · simp only [h0, if_false]
      by_cases hlt : k (l.getD i default) < k (l.getD ((i - 1) / 2) default)
      · rw [if_pos hlt, ih, length_swapNodes]
      · rw [if_neg hlt]

theorem length_siftDown [Inhabited α] (k : α → Nat) (fuel : Nat) :
    ∀ (l : List α) (i : Nat), (siftDown k fuel l i).length = l.length := by
  induction fuel with
  | zero => intro l i; rfl
  | succ fuel ih =>
    intro l i
    rw [siftDown]
    by_cases hc : 2 * i + 1 < l.length
    · simp only [hc, if_true]
      set c :=
        if 2 * i + 2 < l.length ∧
            k (l.getD (2 * i + 2) default) < k (l.getD (2 * i + 1) default) then
          2 * i + 2
        else 2 * i + 1 with hcdef
      by_cases hlt : k (l.getD c default) < k (l.getD i default)
      · rw [if_pos hlt, ih, length_swapNodes]
      · rw [if_neg hlt]
    · simp [hc]

theorem perm_siftUp [Inhabited α] [DecidableEq α] (k : α → Nat) (fuel : Nat) :
    ∀ (l : List α) (i : Nat), i < l.length → (siftUp k fuel l i).Perm l := by
  induction fuel with
  | zero => intro l i _; exact List.Perm.refl l
  | succ fuel ih =>
    intro l i hi
    rw [siftUp]
    by_cases h0 : i = 0
    · simp [h0]
    · simp only [h0, if_false]
      by_cases hlt : k (l.getD i default) < k (l.getD ((i - 1) / 2) default)
      · rw [if_pos hlt]
        have hp : (i - 1) / 2 < l.length := lt_of_le_of_lt (Nat.le_of_lt (Nat.lt_of_le_of_lt (Nat.div_le_self _ 2) (Nat.pred_lt h0))) hi
        have hswap : (swapNodes l ((i - 1) / 2) i).Perm l := perm_swapNodes l hp hi
        have hp2 : (i - 1) / 2 < (swapNodes l ((i - 1) / 2) i).length := by
          rw [length_swapNodes]; exact hp
        exact (ih _ _ hp2).trans hswap
      · rw [if_neg hlt]

theorem perm_siftDown [Inhabited α] [DecidableEq α] (k : α → Nat) (fuel : Nat) :
    ∀ (l : List α) (i : Nat), (siftDown k fuel l i).Perm l := by
  induction fuel with
  | zero => intro l i; exact List.Perm.refl l
  | succ fuel ih =>
    intro l i
    rw [siftDown]
    by_cases hc : 2 * i + 1 < l.length
    · simp only [hc, if_true]
      set c :=
        if 2 * i + 2 < l.length ∧
            k (l.getD (2 * i + 2) default) < k (l.getD (2 * i + 1) default) then
          2 * i + 2
        else 2 * i + 1 with hcdef
      have hcb : c < l.length := by
        rw [hcdef]
        by_cases h2 : 2 * i + 2 < l.length ∧
            k (l.getD (2 * i + 2) default) < k (l.getD (2 * i + 1) default)
        · rw [if_pos h2]; exact h2.1
        · rw [if_neg h2]; exact hc
      have hib : i < l.length := lt_trans (by omega) hc
      by_cases hlt : k (l.getD c default) < k (l.getD i default)
      · rw [if_pos hlt]
        exact (ih _ _).trans (perm_swapNodes l hib hcb)
      · rw [if_neg hlt]
    · simp [hc]

theorem perm_heapPush [Inhabited α] [DecidableEq α] (k : α → Nat) (l : List α) (x : α) :
    (heapPush k l x).Perm (x :: l) := by
  have h1 : l.length < (l ++ [x]).length := by simp
  exact (perm_siftUp k l.length (l ++ [x]) l.length h1).trans
    (List.perm_append_singleton x l)

theorem getLast_eq_getD [Inhabited α] (l : List α) (h : l ≠ []) :
    l.getLast h = l.getD (l.length - 1) default := by
  rw [List.getLast_eq_getElem]
  have hlt : l.length - 1 < l.length := by
    cases l with
    | nil => exact absurd rfl h
    | cons a t => simp
  rw [getD_eq_getElem_of_lt l hlt]

theorem perm_heapPopRoot [Inhabited α] [DecidableEq α] (k : α → Nat) (l : List α)
    (h : l ≠ []) : (l.getD 0 default :: heapPopRoot k l).Perm l := by
  cases l with
  | nil => exact absurd rfl h
  | cons a t =>
    rw [heapPopRoot]
    have hne : (a :: t) ≠ [] := by simp
    have hlen : (a :: t).length - 1 < (a :: t).length := by simp
    have h0 : (0 : Nat) < (a :: t).length := by simp
    set w := swapNodes (a :: t) 0 ((a :: t).length - 1) with hw
    have hwne : w ≠ [] := by
      have : w.length = (a :: t).length := length_swapNodes _ _ _
      intro hcon
      rw [hcon] at this
      simp at this
    have hwperm : w.Perm (a :: t) := perm_swapNodes (a :: t) h0 hlen
    have hwlast : w.getLast hwne = (a :: t).getD 0 default := by
      rw [getLast_eq_getD w hwne]
      have hwl : w.length = (a :: t).length := length_swapNodes _ _ _
      rw [hwl]
      exact getD_swapNodes_snd (a :: t) hlen
    have hsplit : w.dropLast ++ [(a :: t).getD 0 default] = w := by
      rw [← hwlast]
      exact List.dropLast_append_getLast hwne
    have hperm2 : (siftDown k w.dropLast.length w.dropLast 0).Perm w.dropLast :=
      perm_siftDown k _ _ _
    exact (hperm2.cons _).trans
      (((List.perm_append_singleton _ _).symm).trans (by rw [hsplit]; exact hwperm))

theorem siftUp_isHeap [Inhabited α] (k : α → Nat) (fuel : Nat) :
    ∀ (l : List α) (i : Nat), i ≤ fuel → i < l.length →
      UpExceptA k l i → UpExceptB k l i → IsHeap k (siftUp k fuel l i) := by
  induction fuel with
  | zero =>
    intro l i hif hi ha hb j hj hjl
    exact ha j hj hjl (by omega)
  | succ fuel ih =>
    intro l i hif hi ha hb
    rw [siftUp]
    by_cases h0 : i = 0
    · simp only [h0, if_true]
      intro j hj hjl
      exact ha j hj hjl (by omega)
    · simp only [h0, if_false]
      by_cases hlt : k (l.getD i default) < k (l.getD ((i - 1) / 2) default)
      · rw [if_pos hlt]
        have hi0 : 0 < i := Nat.pos_of_ne_zero h0
        have hpi : (i - 1) / 2 < i := by omega
        have hpl : (i - 1) / 2 < l.length := lt_trans hpi hi
        have hfst : (swapNodes l ((i - 1) / 2) i).getD ((i - 1) / 2) default =
            l.getD i default := getD_swapNodes_fst l hpl hi
        have hsnd : (swapNodes l ((i - 1) / 2) i).getD i default =
            l.getD ((i - 1) / 2) default := getD_swapNodes_snd l hi
        have hoth : ∀ m, m ≠ (i - 1) / 2 → m ≠ i →
            (swapNodes l ((i - 1) / 2) i).getD m default = l.getD m default :=
          fun m h1 h2 => getD_swapNodes_other l h1 h2
        apply ih (swapNodes l ((i - 1) / 2) i) ((i - 1) / 2) (by omega)
          (by rw [length_swapNodes]; exact hpl)
        · intro j hj hjl hjp
          rw [length_swapNodes] at hjl
          by_cases hji : j = i
          · subst hji
            rw [hfst, hsnd]
            exact Nat.le_of_lt hlt
          · rw [hoth j hjp hji]
            by_cases hq1 : (j - 1) / 2 = (i - 1) / 2
            · rw [hq1, hfst]
              have h2 := ha j hj hjl hji
              rw [hq1] at h2
              exact Nat.le_trans (Nat.le_of_lt hlt) h2
            · by_cases hq2 : (j - 1) / 2 = i
              · rw [hq2, hsnd]
                exact hb j hj hjl hq2 hi0
              · rw [hoth ((j - 1) / 2) hq1 hq2]
                exact ha j hj hjl hji
        · intro c hc hcl hcp hp0
          rw [length_swapNodes] at hcl
          have hg1 : ((i - 1) / 2 - 1) / 2 ≠ (i - 1) / 2 := by omega
          have hg2 : ((i - 1) / 2 - 1) / 2 ≠ i := by omega
          rw [hoth (((i - 1) / 2 - 1) / 2) hg1 hg2]
          have hpar := ha ((i - 1) / 2) hp0 hpl (by omega)
          by_cases hci : c = i
          · subst hci
            rw [hsnd]
            exact hpar
          · have hcp' : c ≠ (i - 1) / 2 := by omega
            rw [hoth c hcp' hci]
            have h2 := ha c hc hcl hci
            rw [hcp] at h2
            exact Nat.le_trans hpar h2
      · rw [if_neg hlt]
        intro j hj hjl
        by_cases hji : j = i
        · subst hji
          exact Nat.le_of_not_lt hlt
        · exact ha j hj hjl hji

theorem siftDown_isHeap [Inhabited α] (k : α → Nat) (fuel : Nat) :
    ∀ (l : List α) (i : Nat), l.length ≤ fuel + i →
      DownExceptA k l i → DownExceptB k l i → IsHeap k (siftDown k fuel l i) := by
  induction fuel with
  | zero =>
    intro l i hfi ha hb
    have hz : siftDown k 0 l i = l := rfl
    rw [hz]
    intro j hj hjl
    exact ha j hj hjl (by omega)
  | succ fuel ih =>
    intro l i hfi ha hb
    rw [siftDown]
    by_cases hch : 2 * i + 1 < l.length
    · simp only [hch, if_true]
      set c :=
        if 2 * i + 2 < l.length ∧
            k (l.getD (2 * i + 2) default) < k (l.getD (2 * i + 1) default) then
          2 * i + 2
        else 2 * i + 1 with hcdef
      have hcsplit : c = 2 * i + 1 ∨ c = 2 * i + 2 := by
        rw [hcdef]
        by_cases h2 : 2 * i + 2 < l.length ∧
            k (l.getD (2 * i + 2) default) < k (l.getD (2 * i + 1) default)
        · rw [if_pos h2]; right; rfl
        · rw [if_neg h2]; left; rfl
      have hcb : c < l.length := by
        rw [hcdef]
        by_cases h2 : 2 * i + 2 < l.length ∧
            k (l.getD (2 * i + 2) default) < k (l.getD (2 * i + 1) default)
        · rw [if_pos h2]; exact h2.1
        · rw [if_neg h2]; exact hch
      have hpc : (c - 1) / 2 = i := by omega
      have hic : i < c := by omega
      have hmin : ∀ j, j < l.length → (j = 2 * i + 1 ∨ j = 2 * i + 2) →
          k (l.getD c default) ≤ k (l.getD j default) := by
        intro j hjl hj12
        rw [hcdef]
        by_cases h2 : 2 * i + 2 < l.length ∧
            k (l.getD (2 * i + 2) default) < k (l.getD (2 * i + 1) default)
        · rw [if_pos h2]
          rcases hj12 with h | h
          · subst h; exact Nat.le_of_lt h2.2
          · subst h; exact Nat.le_refl _
        · rw [if_neg h2]
          rcases hj12 with h | h
          · subst h; exact Nat.le_refl _
          · subst h
            have hnlt : ¬ k (l.getD (2 * i + 2) default) <
                k (l.getD (2 * i + 1) default) := fun hcon => h2 ⟨hjl, hcon⟩
            exact Nat.le_of_not_lt hnlt
      have hib : i < l.length := lt_trans (by omega) hch
      by_cases hlt : k (l.getD c default) < k (l.getD i default)
      · rw [if_pos hlt]
        have hfst : (swapNodes l i c).getD i default = l.getD c default :=
          getD_swapNodes_fst l hib hcb
        have hsnd : (swapNodes l i c).getD c default = l.getD i default :=
          getD_swapNodes_snd l hcb
        have hoth : ∀ m, m ≠ i → m ≠ c →
            (swapNodes l i c).getD m default = l.getD m default :=
          fun m h1 h2 => getD_swapNodes_other l h1 h2
        apply ih (swapNodes l i c) c (by rw [length_swapNodes]; omega)
        · intro j hj hjl hjp
          rw [length_swapNodes] at hjl
          by_cases hjc : j = c
          · subst hjc
            rw [hpc, hfst, hsnd]
            exact Nat.le_of_lt hlt
          · by_cases hji : j = i
            · have hi0 : 0 < i := hji ▸ hj
              rw [hji]
              have hpj1 : (i - 1) / 2 ≠ i := by omega
              have hpj2 : (i - 1) / 2 ≠ c := by omega
              rw [hoth ((i - 1) / 2) hpj1 hpj2, hfst]
              exact hb hi0 c (by omega) hcb hpc
            · rw [hoth j hji hjc]
              by_cases hq1 : (j - 1) / 2 = i
              · rw [hq1, hfst]
                have hj12 : j = 2 * i + 1 ∨ j = 2 * i + 2 := by omega
                exact hmin j hjl hj12
              · rw [hoth ((j - 1) / 2) hq1 hjp]
                exact ha j hj hjl hq1
        · intro hc0 d hd hdl hdp
          rw [length_swapNodes] at hdl
          rw [hpc, hfst]
          have hd1 : d ≠ i := by omega
          have hd2 : d ≠ c := by omega
          rw [hoth d hd1 hd2]
          have h2 := ha d hd hdl (by omega)
          rw [hdp] at h2
          exact h2
      · rw [if_neg hlt]
        intro j hj hjl
        by_cases hpj : (j - 1) / 2 = i
        · rw [hpj]
          have hj12 : j = 2 * i + 1 ∨ j = 2 * i + 2 := by omega
          exact Nat.le_trans (Nat.le_of_not_lt hlt) (hmin j hjl hj12)
        · exact ha j hj hjl hpj
    · simp only [hch, if_false]
      intro j hj hjl
      by_cases hpj : (j - 1) / 2 = i
      · exfalso; omega
      · exact ha j hj hjl hpj

theorem getD_append_left [Inhabited α] (l : List α) (x : α) {m : Nat}
    (hm : m < l.length) : (l ++ [x]).getD m default = l.getD m default := by
  rw [List.getD_eq_getElem?_getD, List.getD_eq_getElem?_getD, List.getElem?_append,
    if_pos hm]

theorem getD_dropLast [Inhabited α] (l : List α) {m : Nat} (hm : m < l.length - 1) :
    l.dropLast.getD m default = l.getD m default := by
  rw [List.getD_eq_getElem?_getD, List.getD_eq_getElem?_getD, List.getElem?_dropLast,
    if_pos hm]

theorem getD_mem_of_lt [Inhabited α] (l : List α) {j : Nat} (hj : j < l.length) :
    l.getD j default ∈ l := by
  rw [getD_eq_getElem_of_lt l hj]
  exact l.getElem_mem hj

theorem isHeap_heapPush [Inhabited α] (k : α → Nat) (l : List α) (x : α)
    (h : IsHeap k l) : IsHeap k (heapPush k l x) := by
  rw [heapPush]
  apply siftUp_isHeap k l.length (l ++ [x]) l.length (Nat.le_refl _) (by simp)
  · intro j hj hjl hjne
    simp only [List.length_append, List.length_cons, List.length_nil] at hjl
    have hjlen : j < l.length := by omega
    have hpl : (j - 1) / 2 < l.length := by omega
    rw [getD_append_left l x hpl, getD_append_left l x hjlen]
    exact h j hj hjlen
  · intro c hc hcl hcp hpos
    exfalso
    simp only [List.length_append, List.length_cons, List.length_nil] at hcl
    omega

theorem isHeap_heapPopRoot [Inhabited α] (k : α → Nat) (l : List α)
    (h : IsHeap k l) : IsHeap k (heapPopRoot k l) := by
  cases l with
  | nil =>
    intro j hj hjl
    simp [heapPopRoot] at hjl
  | cons a t =>
    rw [heapPopRoot]
    apply siftDown_isHeap _ _ _ 0 (by omega)
    · intro j hj hjl hpj
      have hlen : ((swapNodes (a :: t) 0 ((a :: t).length - 1)).dropLast).length
          = (a :: t).length - 1 := by
        rw [List.length_dropLast, length_swapNodes]
      rw [hlen] at hjl
      have hp0 : 0 < (j - 1) / 2 := Nat.pos_of_ne_zero hpj
      have hpl : (j - 1) / 2 < (a :: t).length - 1 := by omega
      have hw : ∀ m, 0 < m → m < (a :: t).length - 1 →
          ((swapNodes (a :: t) 0 ((a :: t).length - 1)).dropLast).getD m default
            = (a :: t).getD m default := by
        intro m hm hml
        have hdl : m < (swapNodes (a :: t) 0 ((a :: t).length - 1)).length - 1 := by
          rw [length_swapNodes]
          exact hml
        rw [getD_dropLast _ hdl]
        exact getD_swapNodes_other (a :: t) (by omega) (by omega)
      rw [hw _ hp0 hpl, hw _ hj hjl]
      exact h j hj (by omega)
    · intro h0
      exact absurd h0 (lt_irrefl 0)

theorem isHeap_root_change [Inhabited α] (k k' : α → Nat) (l : List α)
    (h : IsHeap k l)
    (hagree : ∀ m, 0 < m → m < l.length →
      k' (l.getD m default) = k (l.getD m default)) :
    IsHeap k' (siftDown k' l.length l 0) := by
  apply siftDown_isHeap k' l.length l 0 (by omega)
  · intro j hj hjl hpj
    have hp0 : 0 < (j - 1) / 2 := Nat.pos_of_ne_zero hpj
    have hpl : (j - 1) / 2 < l.length := by omega
    rw [hagree _ hp0 hpl, hagree _ hj hjl]
    exact h j hj hjl
  · intro h0
    exact absurd h0 (lt_irrefl 0)

theorem isHeap_congr [Inhabited α] (k k' : α → Nat) (l : List α)
    (hagree : ∀ m, m < l.length → k' (l.getD m default) = k (l.getD m default))
    (h : IsHeap k l) : IsHeap k' l := by
  intro j hj hjl
  rw [hagree _ (by omega), hagree _ hjl]
  exact h j hj hjl

theorem isHeap_root_min [Inhabited α] (k : α → Nat) (l : List α) (h : IsHeap k l) :
    ∀ j, j < l.length → k (l.getD 0 default) ≤ k (l.getD j default) := by
  intro j
  induction j using Nat.strong_induction_on with
  | _ j ih =>
    intro hjl
    rcases Nat.eq_zero_or_pos j with h0 | h0
    · rw [h0]
    · have hp : (j - 1) / 2 < j := by omega
      exact Nat.le_trans (ih _ hp (by omega)) (h j h0 hjl)

theorem isHeap_head_min [Inhabited α] (k : α → Nat) (l : List α) (h : IsHeap k l)
    (x : α) (hx : x ∈ l) : k (l.getD 0 default) ≤ k x := by
  obtain ⟨j, hjl, hje⟩ := List.getElem_of_mem hx
  rw [← hje, ← getD_eq_getElem_of_lt l hjl]
  exact isHeap_root_min k l h j hjl

theorem findQueue_set_self (m : List (Nat × List PerfEvent)) (fd : Nat)
    (q : List PerfEvent) : findQueue (setQueue m fd q) fd = some q := by
  induction m with
  | nil => simp [setQueue, findQueue]
  | cons hd tl ih =>
    obtain ⟨fd0, q0⟩ := hd
    by_cases h : fd0 = fd
    · simp [setQueue, findQueue, h]
    · simp only [setQueue, h, if_false]
      simp only [findQueue, h, if_false]
      exact ih

theorem findQueue_set_other (m : List (Nat × List PerfEvent)) {fd fd' : Nat}
    (q : List PerfEvent) (h : fd' ≠ fd) :
    findQueue (setQueue m fd q) fd' = findQueue m fd' := by
  have h2 : ¬ fd = fd' := fun hc => h hc.symm
  induction m with
  | nil => simp [setQueue, findQueue, h2]
  | cons hd tl ih =>
    obtain ⟨fd0, q0⟩ := hd
    by_cases h0 : fd0 = fd
    · subst h0
      simp [setQueue, findQueue, h2]
    · simp only [setQueue, h0, if_false, findQueue]
      by_cases h1 : fd0 = fd'
      · simp [h1]
      · simp only [h1, if_false]
        exact ih

theorem findQueue_erase_other (m : List (Nat × List PerfEvent)) {fd fd' : Nat}
    (h : fd' ≠ fd) : findQueue (eraseQueue m fd) fd' = findQueue m fd' := by
  have h2 : ¬ fd = fd' := fun hc => h hc.symm
  induction m with
  | nil => simp [eraseQueue]
  | cons hd tl ih =>
    obtain ⟨fd0, q0⟩ := hd
    by_cases h0 : fd0 = fd
    · subst h0
      simp [eraseQueue, findQueue, h2]
    · simp only [eraseQueue, h0, if_false, findQueue]
      by_cases h1 : fd0 = fd'
      · simp [h1]
      · simp only [h1, if_false]
        exact ih

theorem mem_keys_iff_findQueue (m : List (Nat × List PerfEvent)) (fd : Nat) :
    fd ∈ m.map Prod.fst ↔ ∃ q, findQueue m fd = some q := by
  induction m with
  | nil => simp [findQueue]
  | cons hd tl ih =>
    obtain ⟨fd0, q0⟩ := hd
    by_cases h : fd0 = fd
    · subst h
      simp [findQueue]
    · simp only [List.map_cons, List.mem_cons, findQueue, h, if_false]
      constructor
      · intro hc
        rcases hc with hc | hc
        · exact absurd hc.symm h
        · exact ih.mp hc
      · intro hc
        exact Or.inr (ih.mpr hc)

theorem findQueue_eq_none_iff (m : List (Nat × List PerfEvent)) (fd : Nat) :
    findQueue m fd = none ↔ fd ∉ m.map Prod.fst := by
  rw [mem_keys_iff_findQueue]
  cases hf : findQueue m fd with
  | none => simp
  | some q => simp [hf]

theorem findQueue_erase_self (m : List (Nat × List PerfEvent)) (fd : Nat)
    (hnd : (m.map Prod.fst).Nodup) : findQueue (eraseQueue m fd) fd = none := by
  induction m with
  | nil => simp [eraseQueue, findQueue]
  | cons hd tl ih =>
    obtain ⟨fd0, q0⟩ := hd
    simp only [List.map_cons, List.nodup_cons] at hnd
    by_cases h : fd0 = fd
    · subst h
      simp only [eraseQueue, if_true]
      rw [findQueue_eq_none_iff]
      exact hnd.1
    · simp only [eraseQueue, h, if_false, findQueue]
      exact ih hnd.2

theorem mem_of_findQueue_some {m : List (Nat × List PerfEvent)} {fd : Nat}
    {q : List PerfEvent} (h : findQueue m fd = some q) : (fd, q) ∈ m := by
  induction m with
  | nil => simp [findQueue] at h
  | cons hd tl ih =>
    obtain ⟨fd0, q0⟩ := hd
    by_cases h0 : fd0 = fd
    · subst h0
      simp only [findQueue, if_true] at h
      simp [Option.some_injective _ h]
    · simp only [findQueue, h0, if_false] at h
      exact List.mem_cons_of_mem _ (ih h)

theorem keys_set_mem {m : List (Nat × List PerfEvent)} {fd : Nat}
    {q0 : List PerfEvent} (h : findQueue m fd = some q0) (q : List PerfEvent) :
    (setQueue m fd q).map Prod.fst = m.map Prod.fst := by
  induction m with
  | nil => simp [findQueue] at h
  | cons hd tl ih =>
    obtain ⟨fd1, q1⟩ := hd
    by_cases h0 : fd1 = fd
    · subst h0
      simp [setQueue]
    · simp only [findQueue, h0, if_false] at h
      simp only [setQueue, h0, if_false, List.map_cons]
      rw [ih h]

theorem keys_set_new {m : List (Nat × List PerfEvent)} {fd : Nat}
    (h : findQueue m fd = none) (q : List PerfEvent) :
    (setQueue m fd q).map Prod.fst = m.map Prod.fst ++ [fd] := by
  induction m with
  | nil => simp [setQueue]
  | cons hd tl ih =>
    obtain ⟨fd1, q1⟩ := hd
    by_cases h0 : fd1 = fd
    · subst h0
      simp [findQueue] at h
    · simp only [findQueue, h0, if_false] at h
      simp only [setQueue, h0, if_false, List.map_cons, List.cons_append]
      rw [ih h]

theorem keys_erase_perm {m : List (Nat × List PerfEvent)} {fd : Nat}
    {q0 : List PerfEvent} (h : findQueue m fd = some q0) :
    (fd :: (eraseQueue m fd).map Prod.fst).Perm (m.map Prod.fst) := by
  induction m with
  | nil => simp [findQueue] at h
  | cons hd tl ih =>
    obtain ⟨fd1, q1⟩ := hd
    by_cases h0 : fd1 = fd
    · subst h0
      simp [eraseQueue]
    · simp only [findQueue, h0, if_false] at h
      simp only [eraseQueue, h0, if_false, List.map_cons]
      exact (List.Perm.swap fd1 fd _).trans ((ih h).cons fd1)

theorem keys_erase_sublist (m : List (Nat × List PerfEvent)) (fd : Nat) :
    ((eraseQueue m fd).map Prod.fst).Sublist (m.map Prod.fst) := by
  induction m with
  | nil => simp [eraseQueue]
  | cons hd tl ih =>
    obtain ⟨fd1, q1⟩ := hd
    by_cases h0 : fd1 = fd
    · simp only [eraseQueue, h0, if_true, List.map_cons]
      exact (List.sublist_cons_self _ _)
    · simp only [eraseQueue, h0, if_false, List.map_cons]
      exact ih.cons₂ fd1

theorem mem_setQueue_cases {m : List (Nat × List PerfEvent)} {fd : Nat}
    {q : List PerfEvent} {p : Nat × List PerfEvent} (h : p ∈ setQueue m fd q) :
    p = (fd, q) ∨ p ∈ m := by
  induction m with
  | nil => simpa [setQueue] using h
  | cons hd tl ih =>
    obtain ⟨fd1, q1⟩ := hd
    by_cases h0 : fd1 = fd
    · simp only [setQueue, h0, if_true, List.mem_cons] at h
      rcases h with h | h
      · exact Or.inl h
      · exact Or.inr (List.mem_cons_of_mem _ h)
    · simp only [setQueue, h0, if_false, List.mem_cons] at h
      rcases h with h | h
      · exact Or.inr (h ▸ List.mem_cons_self _ _)
      · rcases ih h with h2 | h2
        · exact Or.inl h2
        · exact Or.inr (List.mem_cons_of_mem _ h2)

theorem mem_eraseQueue_sub {m : List (Nat × List PerfEvent)} {fd : Nat}
    {p : Nat × List PerfEvent} (h : p ∈ eraseQueue m fd) : p ∈ m := by
  induction m with
  | nil => simpa [eraseQueue] using h
  | cons hd tl ih =>
    obtain ⟨fd1, q1⟩ := hd
    by_cases h0 : fd1 = fd
    · simp only [eraseQueue, h0, if_true] at h
      exact List.mem_cons_of_mem _ h
    · simp only [eraseQueue, h0, if_false, List.mem_cons] at h
      rcases h with h | h
      · exact h ▸ List.mem_cons_self _ _
      · exact List.mem_cons_of_mem _ (ih h)

theorem perm_append_swap_left (a b c : List α) :
    (a ++ (b ++ c)).Perm (b ++ (a ++ c)) := by
  rw [← List.append_assoc, ← List.append_assoc]
  exact List.Perm.append (List.perm_append_comm) (List.Perm.refl c)

theorem flatten_set_append {m : List (Nat × List PerfEvent)} {fd : Nat}
    {q : List PerfEvent} (h : findQueue m fd = some q) (e : PerfEvent) :
    (((setQueue m fd (q ++ [e])).map Prod.snd).flatten).Perm
      (e :: (m.map Prod.snd).flatten) := by
  induction m with
  | nil => simp [findQueue] at h
  | cons hd tl ih =>
    obtain ⟨fd1, q1⟩ := hd
    by_cases h0 : fd1 = fd
    · subst h0
      simp only [findQueue, if_true] at h
      have hq : q1 = q := Option.some_injective _ h
      subst hq
      simp only [setQueue, if_true, List.map_cons, List.flatten_cons,
        List.append_assoc, List.singleton_append]
      exact List.perm_middle
    · simp only [findQueue, h0, if_false] at h
      simp only [setQueue, h0, if_false, List.map_cons, List.flatten_cons]
      exact (List.Perm.append_left q1 (ih h)).trans List.perm_middle

theorem flatten_set_new {m : List (Nat × List PerfEvent)} {fd : Nat}
    (h : findQueue m fd = none) (q' : List PerfEvent) :
    (((setQueue m fd q').map Prod.snd).flatten).Perm
      (q' ++ (m.map Prod.snd).flatten) := by
  induction m with
  | nil => simp [setQueue]
  | cons hd tl ih =>
    obtain ⟨fd1, q1⟩ := hd
    by_cases h0 : fd1 = fd
    · subst h0
      simp [findQueue] at h
    · simp only [findQueue, h0, if_false] at h
      simp only [setQueue, h0, if_false, List.map_cons, List.flatten_cons]
      exact (List.Perm.append_left q1 (ih h)).trans (perm_append_swap_left q1 q' _)

theorem flatten_set_tail {m : List (Nat × List PerfEvent)} {fd : Nat}
    {x : PerfEvent} {rest : List PerfEvent}
    (h : findQueue m fd = some (x :: rest)) :
    (x :: ((setQueue m fd rest).map Prod.snd).flatten).Perm
      ((m.map Prod.snd).flatten) := by
  induction m with
  | nil => simp [findQueue] at h
  | cons hd tl ih =>
    obtain ⟨fd1, q1⟩ := hd
    by_cases h0 : fd1 = fd
    · subst h0
      simp only [findQueue, if_true] at h
      have hq : q1 = x :: rest := Option.some_injective _ h
      subst hq
      simp only [setQueue, if_true, List.map_cons, List.flatten_cons,
        List.cons_append]
      exact List.Perm.refl _
    · simp only [findQueue, h0, if_false] at h
      simp only [setQueue, h0, if_false, List.map_cons, List.flatten_cons]
      exact (List.perm_middle.symm).trans (List.Perm.append_left q1 (ih h))

theorem flatten_erase {m : List (Nat × List PerfEvent)} {fd : Nat}
    {q : List PerfEvent} (h : findQueue m fd = some q) :
    (q ++ ((eraseQueue m fd).map Prod.snd).flatten).Perm
      ((m.map Prod.snd).flatten) := by
  induction m with
  | nil => simp [findQueue] at h
  | cons hd tl ih =>
    obtain ⟨fd1, q1⟩ := hd
    by_cases h0 : fd1 = fd
    · subst h0
      simp only [findQueue, if_true] at h
      have hq : q1 = q := Option.some_injective _ h
      subst hq
      simp only [eraseQueue, if_true, List.map_cons, List.flatten_cons]
      exact List.Perm.refl _
    · simp only [findQueue, h0, if_false] at h
      simp only [eraseQueue, h0, if_false, List.map_cons, List.flatten_cons]
      exact (perm_append_swap_left q q1 _).trans (List.Perm.append_left q1 (ih h))

theorem findQueue_of_mem_nodup {m : List (Nat × List PerfEvent)}
    {fd : Nat} {q : List PerfEvent} (hnd : (m.map Prod.fst).Nodup)
    (h : (fd, q) ∈ m) : findQueue m fd = some q := by
  induction m with
  | nil => simp at h
  | cons hd tl ih =>
    obtain ⟨fd1, q1⟩ := hd
    simp only [List.map_cons, List.nodup_cons] at hnd
    rcases List.mem_cons.mp h with h0 | h0
    · injection h0 with he1 he2
      simp [findQueue, ← he1, ← he2]
    · by_cases h1 : fd1 = fd
      · exfalso
        subst h1
        exact hnd.1 (List.mem_map.mpr ⟨(fd1, q), h0, rfl⟩)
      · simp only [findQueue, h1, if_false]
        exact ih hnd.2 h0

theorem frontKey_set_other {m : List (Nat × List PerfEvent)} {fd fd' : Nat}
    (q : List PerfEvent) (h : fd' ≠ fd) :
    frontKey (setQueue m fd q) fd' = frontKey m fd' := by
  rw [frontKey, findQueue_set_other m q h, frontKey]

theorem frontKey_erase_other {m : List (Nat × List PerfEvent)} {fd fd' : Nat}
    (h : fd' ≠ fd) : frontKey (eraseQueue m fd) fd' = frontKey m fd' := by
  rw [frontKey, findQueue_erase_other m h, frontKey]

theorem frontKey_set_append {m : List (Nat × List PerfEvent)} {fd : Nat}
    {x : PerfEvent} {t : List PerfEvent} (h : findQueue m fd = some (x :: t))
    (e : PerfEvent) :
    frontKey (setQueue m fd ((x :: t) ++ [e])) fd = frontKey m fd := by
  rw [frontKey, findQueue_set_self, frontKey, h]
  rfl

theorem frontKey_erase_self {m : List (Nat × List PerfEvent)} {fd : Nat}
    (hnd : (m.map Prod.fst).Nodup) : frontKey (eraseQueue m fd) fd = 0 := by
  rw [frontKey, findQueue_erase_self m fd hnd]

theorem PushEvent_untrusted (s : PerfEventQueue) (e : PerfEvent)
    (h : e.ordered = false) :
    PushEvent s e =
      { s with
        priority_queue_of_events_not_ordered_by_fd_ :=
          heapPush PerfEvent.timestamp
            s.priority_queue_of_events_not_ordered_by_fd_ e } := by
  rw [PushEvent]
  simp [h]

theorem PushEvent_trusted_empty (s : PerfEventQueue) (e : PerfEvent)
    (ho : e.ordered = true)
    (h : (findQueue s.queues_of_events_ordered_by_fd_ e.origin).getD [] = []) :
    PushEvent s e =
      { s with
        queues_of_events_ordered_by_fd_ :=
          setQueue s.queues_of_events_ordered_by_fd_ e.origin [e],
        heap_of_queues_of_events_ordered_by_fd_ :=
          heapPush
            (frontKey (setQueue s.queues_of_events_ordered_by_fd_ e.origin [e]))
            s.heap_of_queues_of_events_ordered_by_fd_ e.origin } := by
  rw [PushEvent]
  simp [ho, h]

theorem PushEvent_trusted_existing (s : PerfEventQueue) (e : PerfEvent)
    (ho : e.ordered = true) {x : PerfEvent} {t : List PerfEvent}
    (h : findQueue s.queues_of_events_ordered_by_fd_ e.origin = some (x :: t)) :
    PushEvent s e =
      { s with
        queues_of_events_ordered_by_fd_ :=
          setQueue s.queues_of_events_ordered_by_fd_ e.origin ((x :: t) ++ [e]) } := by
  rw [PushEvent]
  simp [ho, h]

theorem topOrdered_nil {s : PerfEventQueue}
    (hh : s.heap_of_queues_of_events_ordered_by_fd_ = []) : topOrdered s = none := by
  rw [topOrdered, hh]

theorem topOrdered_cons {s : PerfEventQueue} {fd : Nat} {t : List Nat}
    {x : PerfEvent} {r : List PerfEvent}
    (hh : s.heap_of_queues_of_events_ordered_by_fd_ = fd :: t)
    (hf : findQueue s.queues_of_events_ordered_by_fd_ fd = some (x :: r)) :
    topOrdered s = some x := by
  simp [topOrdered, hh, hf]

theorem topOrdered_some_elim {s : PerfEventQueue} {e : PerfEvent}
    (h : topOrdered s = some e) :
    ∃ fd t r, s.heap_of_queues_of_events_ordered_by_fd_ = fd :: t ∧
      findQueue s.queues_of_events_ordered_by_fd_ fd = some (e :: r) := by
  cases hh : s.heap_of_queues_of_events_ordered_by_fd_ with
  | nil =>
    rw [topOrdered_nil hh] at h
    exact absurd h (by simp)
  | cons fd t =>
    cases hf : findQueue s.queues_of_events_ordered_by_fd_ fd with
    | none =>
      have hn : topOrdered s = none := by simp [topOrdered, hh, hf]
      rw [hn] at h
      exact absurd h (by simp)
    | some q =>
      cases q with
      | nil =>
        have hn : topOrdered s = none := by simp [topOrdered, hh, hf]
        rw [hn] at h
        exact absurd h (by simp)
      | cons x r =>
        have hx : topOrdered s = some x := topOrdered_cons hh hf
        rw [hx] at h
        have hxe : x = e := Option.some_injective _ h
        subst hxe
        exact ⟨fd, t, r, rfl, hf⟩

theorem TopEvent_state (s : PerfEventQueue) : (TopEvent s).2 = s := by
  rw [TopEvent]
  cases topOrdered s with
  | none =>
    cases s.priority_queue_of_events_not_ordered_by_fd_ with
    | nil => rfl
    | cons u t => rfl
  | some e =>
    cases s.priority_queue_of_events_not_ordered_by_fd_ with
    | nil => rfl
    | cons u t =>
      by_cases hlt : u.timestamp < e.timestamp
      · simp [hlt]
      · simp [hlt]

theorem PopEvent_fst_eq_TopEvent_fst (s : PerfEventQueue) :
    (PopEvent s).1 = (TopEvent s).1 := by
  rw [PopEvent, TopEvent]
  cases topOrdered s with
  | none =>
    cases s.priority_queue_of_events_not_ordered_by_fd_ with
    | nil => rfl
    | cons u t => rfl
  | some e =>
    cases s.priority_queue_of_events_not_ordered_by_fd_ with
    | nil => rfl
    | cons u t =>
      by_cases hlt : u.timestamp < e.timestamp
      · simp [hlt]
      · simp [hlt]

theorem PopEvent_empty {s : PerfEventQueue} (h1 : topOrdered s = none)
    (h2 : s.priority_queue_of_events_not_ordered_by_fd_ = []) :
    PopEvent s = (none, s) := by
  rw [PopEvent, h1, h2]

theorem PopEvent_ordered_only {s : PerfEventQueue} {e : PerfEvent}
    (h1 : topOrdered s = some e)
    (h2 : s.priority_queue_of_events_not_ordered_by_fd_ = []) :
    PopEvent s = (some e, popFromOrdered s) := by
  rw [PopEvent, h1, h2]

theorem PopEvent_unordered_only {s : PerfEventQueue} {u : PerfEvent}
    {pqt : List PerfEvent} (h1 : topOrdered s = none)
    (h2 : s.priority_queue_of_events_not_ordered_by_fd_ = u :: pqt) :
    PopEvent s =
      (some u,
        { s with
          priority_queue_of_events_not_ordered_by_fd_ :=
            heapPopRoot PerfEvent.timestamp
              s.priority_queue_of_events_not_ordered_by_fd_ }) := by
  rw [PopEvent, h1, h2]

theorem PopEvent_both_unordered {s : PerfEventQueue} {e u : PerfEvent}
    {pqt : List PerfEvent} (h1 : topOrdered s = some e)
    (h2 : s.priority_queue_of_events_not_ordered_by_fd_ = u :: pqt)
    (hlt : u.timestamp < e.timestamp) :
    PopEvent s =
      (some u,
        { s with
          priority_queue_of_events_not_ordered_by_fd_ :=
            heapPopRoot PerfEvent.timestamp
              s.priority_queue_of_events_not_ordered_by_fd_ }) := by
  rw [PopEvent, h1, h2]
  simp [hlt]

theorem PopEvent_both_ordered {s : PerfEventQueue} {e u : PerfEvent}
    {pqt : List PerfEvent} (h1 : topOrdered s = some e)
    (h2 : s.priority_queue_of_events_not_ordered_by_fd_ = u :: pqt)
    (hge : ¬ u.timestamp < e.timestamp) :
    PopEvent s = (some e, popFromOrdered s) := by
  rw [PopEvent, h1, h2]
  simp [hge]

theorem popFromOrdered_erase {s : PerfEventQueue} {fd : Nat} {t : List Nat}
    {x : PerfEvent} (hh : s.heap_of_queues_of_events_ordered_by_fd_ = fd :: t)
    (hf : findQueue s.queues_of_events_ordered_by_fd_ fd = some [x]) :
    popFromOrdered s =
      { s with
        queues_of_events_ordered_by_fd_ :=
          eraseQueue s.queues_of_events_ordered_by_fd_ fd,
        heap_of_queues_of_events_ordered_by_fd_ :=
          heapPopRoot (frontKey (eraseQueue s.queues_of_events_ordered_by_fd_ fd))
            s.heap_of_queues_of_events_ordered_by_fd_ } := by
  simp [popFromOrdered, hh, hf]

theorem popFromOrdered_tail {s : PerfEventQueue} {fd : Nat} {t : List Nat}
    {x y : PerfEvent} {r : List PerfEvent}
    (hh : s.heap_of_queues_of_events_ordered_by_fd_ = fd :: t)
    (hf : findQueue s.queues_of_events_ordered_by_fd_ fd = some (x :: y :: r)) :
    popFromOrdered s =
      { s with
        queues_of_events_ordered_by_fd_ :=
          setQueue s.queues_of_events_ordered_by_fd_ fd (y :: r),
        heap_of_queues_of_events_ordered_by_fd_ :=
          siftDown
            (frontKey (setQueue s.queues_of_events_ordered_by_fd_ fd (y :: r)))
            s.heap_of_queues_of_events_ordered_by_fd_.length
            s.heap_of_queues_of_events_ordered_by_fd_ 0 } := by
  simp [popFromOrdered, hh, hf]

theorem Inv_push (s : PerfEventQueue) (e : PerfEvent) (h : Inv s) :
    Inv (PushEvent s e) := by
  by_cases hord : e.ordered = true
  case neg =>
    have hord' : e.ordered = false := by
      cases hb : e.ordered
      · rfl
      · exact absurd hb hord
    rw [PushEvent_untrusted s e hord']
    refine ⟨h.nodup, h.qne, h.qmatch, ?_, h.hperm, h.hheap, ?_⟩
    · intro x hx
      have hpm := perm_heapPush PerfEvent.timestamp
        s.priority_queue_of_events_not_ordered_by_fd_ e
      rcases List.mem_cons.mp (hpm.mem_iff.mp hx) with h1 | h1
      · rw [h1]
        exact hord'
      · exact h.pqun x h1
    · exact isHeap_heapPush _ _ _ h.pqheap
  case pos =>
    cases hf : findQueue s.queues_of_events_ordered_by_fd_ e.origin with
    | none =>
      have hempty : (findQueue s.queues_of_events_ordered_by_fd_ e.origin).getD []
          = [] := by rw [hf]; rfl
      rw [PushEvent_trusted_empty s e hord hempty]
      have hnotmem : e.origin ∉ s.queues_of_events_ordered_by_fd_.map Prod.fst :=
        (findQueue_eq_none_iff _ _).mp hf
      have hkeys := keys_set_new hf [e]
      refine ⟨?_, ?_, ?_, h.pqun, ?_, ?_, h.pqheap⟩
      · rw [hkeys]
        rw [(List.perm_append_singleton _ _).nodup_iff]
        exact List.Nodup.cons hnotmem h.nodup
      · intro p hp
        rcases mem_setQueue_cases hp with h1 | h1
        · rw [h1]
          simp
        · exact h.qne p h1
      · intro p hp y hy
        rcases mem_setQueue_cases hp with h1 | h1
        · subst h1
          have hye : y = e := by simpa using hy
          subst hye
          exact ⟨rfl, hord⟩
        · exact h.qmatch p h1 y hy
      · rw [hkeys]
        exact (perm_heapPush _ _ _).trans
          ((h.hperm.cons e.origin).trans (List.perm_append_singleton _ _).symm)
      · apply isHeap_heapPush
        refine isHeap_congr (frontKey s.queues_of_events_ordered_by_fd_) _ _ ?_
          h.hheap
        intro j hj
        have hmem : s.heap_of_queues_of_events_ordered_by_fd_.getD j default ∈
            s.heap_of_queues_of_events_ordered_by_fd_ := getD_mem_of_lt _ hj
        have hne : s.heap_of_queues_of_events_ordered_by_fd_.getD j default ≠
            e.origin := by
          intro hc
          exact hnotmem (hc ▸ (h.hperm.mem_iff).mp hmem)
        exact frontKey_set_other [e] hne
    | some q =>
      cases q with
      | nil =>
        exact absurd rfl (h.qne _ (mem_of_findQueue_some hf))
      | cons x t =>
        rw [PushEvent_trusted_existing s e hord hf]
        have hkeys := keys_set_mem hf ((x :: t) ++ [e])
        refine ⟨?_, ?_, ?_, h.pqun, ?_, ?_, h.pqheap⟩
        · rw [hkeys]
          exact h.nodup
        · intro p hp
          rcases mem_setQueue_cases hp with h1 | h1
          · rw [h1]
            simp
          · exact h.qne p h1
        · intro p hp y hy
          rcases mem_setQueue_cases hp with h1 | h1
          · subst h1
            rcases List.mem_append.mp hy with h2 | h2
            · exact h.qmatch (e.origin, x :: t) (mem_of_findQueue_some hf) y h2
            · have hye : y = e := by simpa using h2
              subst hye
              exact ⟨rfl, hord⟩
          · exact h.qmatch p h1 y hy
        · rw [hkeys]
          exact h.hperm
        · refine isHeap_congr (frontKey s.queues_of_events_ordered_by_fd_) _ _ ?_
            h.hheap
          intro j hj
          by_cases hc : s.heap_of_queues_of_events_ordered_by_fd_.getD j default
              = e.origin
          · rw [hc]
            exact frontKey_set_append hf e
          · exact frontKey_set_other _ hc

theorem mem_heapPopRoot_sub [Inhabited α] [DecidableEq α] (k : α → Nat)
    (l : List α) {x : α} (hx : x ∈ heapPopRoot k l) : x ∈ l := by
  cases l with
  | nil => simp [heapPopRoot] at hx
  | cons a t =>
    have hne : (a :: t) ≠ [] := by simp
    exact (perm_heapPopRoot k (a :: t) hne).mem_iff.mp (List.mem_cons_of_mem _ hx)

theorem Inv_popFromOrdered (s : PerfEventQueue) (h : Inv s) :
    Inv (popFromOrdered s) := by
  cases hh : s.heap_of_queues_of_events_ordered_by_fd_ with
  | nil =>
    have hid : popFromOrdered s = s := by simp [popFromOrdered, hh]
    rw [hid]
    exact h
  | cons fd t =>
    cases hf : findQueue s.queues_of_events_ordered_by_fd_ fd with
    | none =>
      have hid : popFromOrdered s = s := by simp [popFromOrdered, hh, hf]
      rw [hid]
      exact h
    | some q =>
      cases q with
      | nil =>
        exact absurd rfl (h.qne _ (mem_of_findQueue_some hf))
      | cons x r =>
        have hne : s.heap_of_queues_of_events_ordered_by_fd_ ≠ [] := by
          rw [hh]
          simp
        have hg0 : s.heap_of_queues_of_events_ordered_by_fd_.getD 0 default = fd := by
          rw [hh]
          rfl
        have hnodup_heap : s.heap_of_queues_of_events_ordered_by_fd_.Nodup :=
          (h.hperm.nodup_iff).mpr h.nodup
        have hval : ∀ m', 0 < m' →
            m' < s.heap_of_queues_of_events_ordered_by_fd_.length →
            s.heap_of_queues_of_events_ordered_by_fd_.getD m' default ≠ fd := by
          intro m' hm0 hml hc
          have h0l : 0 < s.heap_of_queues_of_events_ordered_by_fd_.length := by
            omega
          rw [getD_eq_getElem_of_lt _ hml] at hc
          rw [getD_eq_getElem_of_lt _ h0l] at hg0
          have heq : s.heap_of_queues_of_events_ordered_by_fd_[m'] =
              s.heap_of_queues_of_events_ordered_by_fd_[0] := by rw [hc, hg0]
          have := (List.Nodup.getElem_inj_iff hnodup_heap).mp heq
          omega
        cases r with
        | nil =>
          rw [popFromOrdered_erase hh hf]
          have hkperm := keys_erase_perm hf
          refine ⟨?_, ?_, ?_, h.pqun, ?_, ?_, h.pqheap⟩
          · exact List.Nodup.sublist (keys_erase_sublist _ _) h.nodup
          · intro p hp
            exact h.qne p (mem_eraseQueue_sub hp)
          · intro p hp y hy
            exact h.qmatch p (mem_eraseQueue_sub hp) y hy
          · have hp1 := perm_heapPopRoot
              (frontKey (eraseQueue s.queues_of_events_ordered_by_fd_ fd))
              s.heap_of_queues_of_events_ordered_by_fd_ hne
            rw [hg0] at hp1
            exact (hp1.trans (h.hperm.trans hkperm.symm)).cons_inv
          · apply isHeap_heapPopRoot
            intro j hj hjl
            by_cases hp0 : (j - 1) / 2 = 0
            · rw [hp0, hg0, frontKey_erase_self h.nodup]
              exact Nat.zero_le _
            · have hpl : (j - 1) / 2 < s.heap_of_queues_of_events_ordered_by_fd_.length := by
                omega
              rw [frontKey_erase_other (hval _ (Nat.pos_of_ne_zero hp0) hpl),
                frontKey_erase_other (hval _ hj hjl)]
              exact h.hheap j hj hjl
        | cons y r' =>
          rw [popFromOrdered_tail hh hf]
          have hkeys := keys_set_mem hf (y :: r')
          refine ⟨?_, ?_, ?_, h.pqun, ?_, ?_, h.pqheap⟩
          · rw [hkeys]
            exact h.nodup
          · intro p hp
            rcases mem_setQueue_cases hp with h1 | h1
            · rw [h1]
              simp
            · exact h.qne p h1
          · intro p hp z hz
            rcases mem_setQueue_cases hp with h1 | h1
            · subst h1
              exact h.qmatch (fd, x :: y :: r') (mem_of_findQueue_some hf) z
                (List.mem_cons_of_mem _ hz)
            · exact h.qmatch p h1 z hz
          · rw [hkeys]
            exact (perm_siftDown _ _ _ _).trans h.hperm
          · apply isHeap_root_change (frontKey s.queues_of_events_ordered_by_fd_)
              _ _ h.hheap
            intro m' hm0 hml
            exact frontKey_set_other _ (hval m' hm0 hml)

theorem Inv_pq_popped (s : PerfEventQueue) (h : Inv s) :
    Inv { s with
      priority_queue_of_events_not_ordered_by_fd_ :=
        heapPopRoot PerfEvent.timestamp
          s.priority_queue_of_events_not_ordered_by_fd_ } := by
  refine ⟨h.nodup, h.qne, h.qmatch, ?_, h.hperm, h.hheap, ?_⟩
  · intro x hx
    exact h.pqun x (mem_heapPopRoot_sub _ _ hx)
  · exact isHeap_heapPopRoot _ _ h.pqheap

theorem Inv_pop (s : PerfEventQueue) (h : Inv s) : Inv (PopEvent s).2 := by
  cases hto : topOrdered s with
  | none =>
    cases hpq : s.priority_queue_of_events_not_ordered_by_fd_ with
    | nil =>
      rw [PopEvent_empty hto hpq]
      exact h
    | cons u t =>
      rw [PopEvent_unordered_only hto hpq]
      exact Inv_pq_popped s h
  | some e =>
    cases hpq : s.priority_queue_of_events_not_ordered_by_fd_ with
    | nil =>
      rw [PopEvent_ordered_only hto hpq]
      exact Inv_popFromOrdered s h
    | cons u t =>
      by_cases hlt : u.timestamp < e.timestamp
      · rw [PopEvent_both_unordered hto hpq hlt]
        exact Inv_pq_popped s h
      · rw [PopEvent_both_ordered hto hpq hlt]
        exact Inv_popFromOrdered s h

theorem Inv_init : Inv initQueue := by
  refine ⟨?_, ?_, ?_, ?_, ?_, ?_, ?_⟩
  · simp [initQueue]
  · intro p hp
    simp [initQueue] at hp
  · intro p hp
    simp [initQueue] at hp
  · intro x hx
    simp [initQueue] at hx
  · exact List.Perm.refl _
  · intro j hj hjl
    simp [initQueue] at hjl
  · intro j hj hjl
    simp [initQueue] at hjl

theorem Reachable_inv {s : PerfEventQueue} (h : Reachable s) : Inv s := by
  induction h with
  | init => exact Inv_init
  | push e _ ih => exact Inv_push _ e ih
  | pop _ ih => exact Inv_pop _ ih

theorem allEvents_push (s : PerfEventQueue) (e : PerfEvent) :
    (allEvents (PushEvent s e)).Perm (e :: allEvents s) := by
  by_cases hord : e.ordered = true
  · cases hf : findQueue s.queues_of_events_ordered_by_fd_ e.origin with
    | none =>
      have hempty : (findQueue s.queues_of_events_ordered_by_fd_ e.origin).getD []
          = [] := by rw [hf]; rfl
      rw [PushEvent_trusted_empty s e hord hempty]
      simp only [allEvents]
      exact List.Perm.append (flatten_set_new hf [e]) (List.Perm.refl _)
    | some q =>
      cases q with
      | nil =>
        have hempty : (findQueue s.queues_of_events_ordered_by_fd_ e.origin).getD []
            = [] := by rw [hf]; rfl
        rw [PushEvent_trusted_empty s e hord hempty]
        simp only [allEvents]
        exact List.Perm.append (flatten_set_append hf e) (List.Perm.refl _)
      | cons x t =>
        rw [PushEvent_trusted_existing s e hord hf]
        simp only [allEvents]
        exact List.Perm.append (flatten_set_append hf e) (List.Perm.refl _)
  · have hord' : e.ordered = false := by
      cases hb : e.ordered
      · rfl
      · exact absurd hb hord
    rw [PushEvent_untrusted s e hord']
    simp only [allEvents]
    exact (List.Perm.append_left _ (perm_heapPush _ _ _)).trans List.perm_middle

theorem cons_pq_popped_perm (s : PerfEventQueue) {u : PerfEvent} {t : List PerfEvent}
    (hpq : s.priority_queue_of_events_not_ordered_by_fd_ = u :: t) :
    (u :: allEvents
      { s with
        priority_queue_of_events_not_ordered_by_fd_ :=
          heapPopRoot PerfEvent.timestamp
            s.priority_queue_of_events_not_ordered_by_fd_ }).Perm (allEvents s) := by
  simp only [allEvents]
  have hne : s.priority_queue_of_events_not_ordered_by_fd_ ≠ [] := by
    rw [hpq]
    simp
  have hp1 := perm_heapPopRoot PerfEvent.timestamp
    s.priority_queue_of_events_not_ordered_by_fd_ hne
  have hg : s.priority_queue_of_events_not_ordered_by_fd_.getD 0 default = u := by
    rw [hpq]
    rfl
  rw [hg] at hp1
  exact (List.perm_middle.symm).trans (List.Perm.append_left _ hp1)

theorem cons_popFromOrdered_perm (s : PerfEventQueue) {e₀ : PerfEvent} {fd : Nat}
    {th : List Nat} {r : List PerfEvent}
    (hh : s.heap_of_queues_of_events_ordered_by_fd_ = fd :: th)
    (hf : findQueue s.queues_of_events_ordered_by_fd_ fd = some (e₀ :: r)) :
    (e₀ :: allEvents (popFromOrdered s)).Perm (allEvents s) := by
  cases r with
  | nil =>
    rw [popFromOrdered_erase hh hf]
    simp only [allEvents]
    exact List.Perm.append (flatten_erase hf) (List.Perm.refl _)
  | cons y r' =>
    rw [popFromOrdered_tail hh hf]
    simp only [allEvents]
    exact List.Perm.append (flatten_set_tail hf) (List.Perm.refl _)

theorem allEvents_pop (s : PerfEventQueue) (e : PerfEvent)
    (h : (PopEvent s).1 = some e) :
    (e :: allEvents (PopEvent s).2).Perm (allEvents s) := by
  cases hto : topOrdered s with
  | none =>
    cases hpq : s.priority_queue_of_events_not_ordered_by_fd_ with
    | nil =>
      rw [PopEvent_empty hto hpq] at h
      simp at h
    | cons u t =>
      rw [PopEvent_unordered_only hto hpq] at h ⊢
      have heu : u = e := Option.some_injective _ h
      subst heu
      exact cons_pq_popped_perm s hpq
  | some e₀ =>
    obtain ⟨fd, th, r, hh, hf⟩ := topOrdered_some_elim hto
    cases hpq : s.priority_queue_of_events_not_ordered_by_fd_ with
    | nil =>
      rw [PopEvent_ordered_only hto hpq] at h ⊢
      have he0 : e₀ = e := Option.some_injective _ h
      subst he0
      exact cons_popFromOrdered_perm s hh hf
    | cons u t =>
      by_cases hlt : u.timestamp < e₀.timestamp
      · rw [PopEvent_both_unordered hto hpq hlt] at h ⊢
        have heu : u = e := Option.some_injective _ h
        subst heu
        exact cons_pq_popped_perm s hpq
      · rw [PopEvent_both_ordered hto hpq hlt] at h ⊢
        have he0 : e₀ = e := Option.some_injective _ h
        subst he0
        exact cons_popFromOrdered_perm s hh hf

theorem heap_nil_iff_registry_nil {s : PerfEventQueue} (h : Inv s) :
    s.heap_of_queues_of_events_ordered_by_fd_ = [] ↔
      s.queues_of_events_ordered_by_fd_ = [] := by
  constructor
  · intro hn
    have hk : s.queues_of_events_ordered_by_fd_.map Prod.fst = [] := by
      have := h.hperm
      rw [hn] at this
      exact (this.symm).eq_nil
    exact List.map_eq_nil_iff.mp hk
  · intro hn
    have := h.hperm
    rw [hn] at this
    simp at this
    exact this

theorem flatten_nil_iff {s : PerfEventQueue} (h : Inv s) :
    (s.queues_of_events_ordered_by_fd_.map Prod.snd).flatten = [] ↔
      s.queues_of_events_ordered_by_fd_ = [] := by
  constructor
  · intro hn
    cases hm : s.queues_of_events_ordered_by_fd_ with
    | nil => rfl
    | cons p tl =>
      exfalso
      rw [hm] at hn
      simp only [List.map_cons, List.flatten_cons, List.append_eq_nil] at hn
      exact h.qne p (hm ▸ List.mem_cons_self _ _) hn.1
  · intro hn
    rw [hn]
    rfl

theorem allEvents_nil_iff {s : PerfEventQueue} (h : Inv s) :
    allEvents s = [] ↔
      (s.heap_of_queues_of_events_ordered_by_fd_ = [] ∧
        s.priority_queue_of_events_not_ordered_by_fd_ = []) := by
  rw [allEvents, List.append_eq_nil, flatten_nil_iff h,
    ← heap_nil_iff_registry_nil h]

theorem TopEvent_fst_none_iff_struct (s : PerfEventQueue) :
    (TopEvent s).1 = none ↔
      (topOrdered s = none ∧
        s.priority_queue_of_events_not_ordered_by_fd_ = []) := by
  rw [TopEvent]
  cases hto : topOrdered s with
  | none =>
    cases hpq : s.priority_queue_of_events_not_ordered_by_fd_ with
    | nil => simp
    | cons u t => simp
  | some e =>
    cases hpq : s.priority_queue_of_events_not_ordered_by_fd_ with
    | nil => simp
    | cons u t =>
      by_cases hlt : u.timestamp < e.timestamp
      · simp [hlt]
      · simp [hlt]

theorem topOrdered_none_iff {s : PerfEventQueue} (h : Inv s) :
    topOrdered s = none ↔ s.heap_of_queues_of_events_ordered_by_fd_ = [] := by
  constructor
  · intro hn
    cases hh : s.heap_of_queues_of_events_ordered_by_fd_ with
    | nil => rfl
    | cons fd t =>
      exfalso
      have hmem : fd ∈ s.queues_of_events_ordered_by_fd_.map Prod.fst := by
        apply (h.hperm.mem_iff).mp
        rw [hh]
        exact List.mem_cons_self _ _
      obtain ⟨q, hq⟩ := (mem_keys_iff_findQueue _ _).mp hmem
      cases q with
      | nil => exact h.qne _ (mem_of_findQueue_some hq) rfl
      | cons x r =>
        rw [topOrdered_cons hh hq] at hn
        exact Option.noConfusion hn
  · exact topOrdered_nil

theorem HasEvent_false_iff (s : PerfEventQueue) :
    HasEvent s = false ↔
      (s.heap_of_queues_of_events_ordered_by_fd_ = [] ∧
        s.priority_queue_of_events_not_ordered_by_fd_ = []) := by
  rw [HasEvent]
  simp [List.isEmpty_iff]

theorem TopEvent_none_iff_HasEvent {s : PerfEventQueue} (h : Inv s) :
    (TopEvent s).1 = none ↔ HasEvent s = false := by
  rw [TopEvent_fst_none_iff_struct, HasEvent_false_iff, topOrdered_none_iff h]

theorem PopEvent_none_iff_allEvents {s : PerfEventQueue} (h : Inv s) :
    (PopEvent s).1 = none ↔ allEvents s = [] := by
  rw [PopEvent_fst_eq_TopEvent_fst, TopEvent_fst_none_iff_struct,
    allEvents_nil_iff h, topOrdered_none_iff h]

theorem ordered_top_min {s : PerfEventQueue} (h : Inv s) (hs : QueuesSorted s)
    {e₀ : PerfEvent} (hto : topOrdered s = some e₀) :
    ∀ x ∈ (s.queues_of_events_ordered_by_fd_.map Prod.snd).flatten,
      e₀.timestamp ≤ x.timestamp := by
  obtain ⟨fd, th, r, hh, hf⟩ := topOrdered_some_elim hto
  intro x hx
  obtain ⟨q, hqmem, hxq⟩ := List.mem_flatten.mp hx
  obtain ⟨p, hpmem, hpq⟩ := List.mem_map.mp hqmem
  subst hpq
  have hfp : findQueue s.queues_of_events_ordered_by_fd_ p.1 = some p.2 :=
    findQueue_of_mem_nodup h.nodup (Prod.mk.eta.symm ▸ hpmem)
  cases hq2 : p.2 with
  | nil => exact absurd hq2 (h.qne p hpmem)
  | cons z zs =>
    have hxz : z.timestamp ≤ x.timestamp := by
      rw [hq2] at hxq
      rcases List.mem_cons.mp hxq with h1 | h1
      · rw [h1]
      · have hpw := hs p hpmem
        rw [hq2] at hpw
        exact (List.pairwise_cons.mp hpw).1 x h1
    have hp1mem : p.1 ∈ s.heap_of_queues_of_events_ordered_by_fd_ :=
      (h.hperm.mem_iff).mpr (List.mem_map.mpr ⟨p, hpmem, rfl⟩)
    have hroot := isHeap_head_min _ _ h.hheap p.1 hp1mem
    have hg0 : s.heap_of_queues_of_events_ordered_by_fd_.getD 0 default = fd := by
      rw [hh]
      rfl
    rw [hg0] at hroot
    have hkfd : frontKey s.queues_of_events_ordered_by_fd_ fd = e₀.timestamp := by
      rw [frontKey, hf]
    have hkp : frontKey s.queues_of_events_ordered_by_fd_ p.1 = z.timestamp := by
      rw [frontKey, hfp, hq2]
    rw [hkfd, hkp] at hroot
    exact Nat.le_trans hroot hxz

theorem pq_top_min {s : PerfEventQueue} (h : Inv s) {u : PerfEvent}
    {t : List PerfEvent}
    (hpq : s.priority_queue_of_events_not_ordered_by_fd_ = u :: t) :
    ∀ x ∈ s.priority_queue_of_events_not_ordered_by_fd_,
      u.timestamp ≤ x.timestamp := by
  intro x hx
  have hroot := isHeap_head_min PerfEvent.timestamp _ h.pqheap x hx
  have hg : s.priority_queue_of_events_not_ordered_by_fd_.getD 0 default = u := by
    rw [hpq]
    rfl
  rw [hg] at hroot
  exact hroot

theorem top_min {s : PerfEventQueue} (h : Inv s) (hs : QueuesSorted s)
    {e : PerfEvent} (he : (TopEvent s).1 = some e) :
    ∀ x ∈ allEvents s, e.timestamp ≤ x.timestamp := by
  intro x hx
  rcases List.mem_append.mp hx with hxf | hxp
  all_goals {
    cases hto : topOrdered s with
    | none =>
      cases hpq : s.priority_queue_of_events_not_ordered_by_fd_ with
      | nil =>
        rw [(TopEvent_fst_none_iff_struct s).mpr ⟨hto, hpq⟩] at he
        exact Option.noConfusion he
      | cons u t =>
        have hTop : (TopEvent s).1 = some u := by simp [TopEvent, hto, hpq]
        rw [hTop] at he
        have heu : u = e := Option.some_injective _ he
        subst heu
        first
        | · exfalso
            have hreg : s.queues_of_events_ordered_by_fd_ = [] :=
              (heap_nil_iff_registry_nil h).mp ((topOrdered_none_iff h).mp hto)
            rw [hreg] at hxf
            simp at hxf
        | · exact pq_top_min h hpq x hxp
    | some e₀ =>
      cases hpq : s.priority_queue_of_events_not_ordered_by_fd_ with
      | nil =>
        have hTop : (TopEvent s).1 = some e₀ := by simp [TopEvent, hto, hpq]
        rw [hTop] at he
        have heu : e₀ = e := Option.some_injective _ he
        subst heu
        first
        | · exact ordered_top_min h hs hto x hxf
        | · exfalso
            rw [hpq] at hxp
            simp at hxp
      | cons u t =>
        by_cases hlt : u.timestamp < e₀.timestamp
        · have hTop : (TopEvent s).1 = some u := by simp [TopEvent, hto, hpq, hlt]
          rw [hTop] at he
          have heu : u = e := Option.some_injective _ he
          subst heu
          first
          | · exact Nat.le_trans (Nat.le_of_lt hlt)
                (ordered_top_min h hs hto x hxf)
          | · exact pq_top_min h hpq x hxp
        · have hTop : (TopEvent s).1 = some e₀ := by simp [TopEvent, hto, hpq, hlt]
          rw [hTop] at he
          have heu : e₀ = e := Option.some_injective _ he
          subst heu
          first
          | · exact ordered_top_min h hs hto x hxf
          | · exact Nat.le_trans (Nat.le_of_not_lt hlt) (pq_top_min h hpq x hxp)
  }

theorem QS_popFromOrdered (s : PerfEventQueue) (hs : QueuesSorted s) :
    QueuesSorted (popFromOrdered s) := by
  cases hh : s.heap_of_queues_of_events_ordered_by_fd_ with
  | nil =>
    have hid : popFromOrdered s = s := by simp [popFromOrdered, hh]
    rw [hid]
    exact hs
  | cons fd t =>
    cases hf : findQueue s.queues_of_events_ordered_by_fd_ fd with
    | none =>
      have hid : popFromOrdered s = s := by simp [popFromOrdered, hh, hf]
      rw [hid]
      exact hs
    | some q =>
      cases q with
      | nil =>
        have hid : popFromOrdered s = s := by simp [popFromOrdered, hh, hf]
        rw [hid]
        exact hs
      | cons x r =>
        cases r with
        | nil =>
          rw [popFromOrdered_erase hh hf]
          intro p hp
          exact hs p (mem_eraseQueue_sub hp)
        | cons y r' =>
          rw [popFromOrdered_tail hh hf]
          intro p hp
          rcases mem_setQueue_cases hp with h1 | h1
          · subst h1
            have hpw := hs (fd, x :: y :: r') (mem_of_findQueue_some hf)
            exact List.Pairwise.of_cons hpw
          · exact hs p h1

theorem QS_pop (s : PerfEventQueue) (hs : QueuesSorted s) :
    QueuesSorted (PopEvent s).2 := by
  cases hto : topOrdered s with
  | none =>
    cases hpq : s.priority_queue_of_events_not_ordered_by_fd_ with
    | nil =>
      rw [PopEvent_empty hto hpq]
      exact hs
    | cons u t =>
      rw [PopEvent_unordered_only hto hpq]
      exact hs
  | some e =>
    cases hpq : s.priority_queue_of_events_not_ordered_by_fd_ with
    | nil =>
      rw [PopEvent_ordered_only hto hpq]
      exact QS_popFromOrdered s hs
    | cons u t =>
      by_cases hlt : u.timestamp < e.timestamp
      · rw [PopEvent_both_unordered hto hpq hlt]
        exact hs
      · rw [PopEvent_both_ordered hto hpq hlt]
        exact QS_popFromOrdered s hs

theorem queueContents_push (s : PerfEventQueue) (e : PerfEvent) (fd : Nat) :
    queueContents (PushEvent s e) fd =
      if e.ordered && e.origin == fd then queueContents s fd ++ [e]
      else queueContents s fd := by
  by_cases hord : e.ordered = true
  · cases hf : findQueue s.queues_of_events_ordered_by_fd_ e.origin with
    | none =>
      have hempty : (findQueue s.queues_of_events_ordered_by_fd_ e.origin).getD []
          = [] := by rw [hf]; rfl
      rw [PushEvent_trusted_empty s e hord hempty]
      by_cases hfd : e.origin = fd
      · subst hfd
        simp [queueContents, findQueue_set_self, hf, hord]
      · have hne : fd ≠ e.origin := fun hc => hfd hc.symm
        simp [queueContents, findQueue_set_other _ _ hne, hord, hfd]
    | some q =>
      cases q with
      | nil =>
        have hempty : (findQueue s.queues_of_events_ordered_by_fd_ e.origin).getD []
            = [] := by rw [hf]; rfl
        rw [PushEvent_trusted_empty s e hord hempty]
        by_cases hfd : e.origin = fd
        · subst hfd
          simp [queueContents, findQueue_set_self, hf, hord]
        · have hne : fd ≠ e.origin := fun hc => hfd hc.symm
          simp [queueContents, findQueue_set_other _ _ hne, hord, hfd]
      | cons x t =>
        rw [PushEvent_trusted_existing s e hord hf]
        by_cases hfd : e.origin = fd
        · subst hfd
          simp [queueContents, findQueue_set_self, hf, hord]
        · have hne : fd ≠ e.origin := fun hc => hfd hc.symm
          simp [queueContents, findQueue_set_other _ _ hne, hord, hfd]
  · have hord' : e.ordered = false := by
      cases hb : e.ordered
      · rfl
      · exact absurd hb hord
    rw [PushEvent_untrusted s e hord']
    simp [queueContents, hord']

theorem queueContents_pushAll (es : List PerfEvent) :
    ∀ (s : PerfEventQueue) (fd : Nat),
      queueContents (pushAll s es) fd =
        queueContents s fd ++
          es.filter (fun e => e.ordered && e.origin == fd) := by
  induction es with
  | nil =>
    intro s fd
    simp [pushAll]
  | cons e es ih =>
    intro s fd
    have hstep : pushAll s (e :: es) = pushAll (PushEvent s e) es := rfl
    rw [hstep, ih (PushEvent s e) fd, queueContents_push, List.filter_cons]
    by_cases hc : (e.ordered && e.origin == fd) = true
    · simp only [hc, if_true]
      rw [List.append_assoc]
      rfl
    · simp [hc]

theorem Inv_pushAll (es : List PerfEvent) :
    ∀ s : PerfEventQueue, Inv s → Inv (pushAll s es) := by
  induction es with
  | nil => intro s h; exact h
  | cons e es ih =>
    intro s h
    exact ih (PushEvent s e) (Inv_push s e h)

theorem allEvents_pushAll (es : List PerfEvent) :
    ∀ s : PerfEventQueue, (allEvents (pushAll s es)).Perm (es ++ allEvents s) := by
  induction es with
  | nil => intro s; exact List.Perm.refl _
  | cons e es ih =>
    intro s
    have hstep : pushAll s (e :: es) = pushAll (PushEvent s e) es := rfl
    rw [hstep]
    exact ((ih (PushEvent s e)).trans
      (List.Perm.append_left es (allEvents_push s e))).trans List.perm_middle

theorem QS_pushAll_init (es : List PerfEvent) (hm : SrcMonotone es) :
    QueuesSorted (pushAll initQueue es) := by
  intro p hp
  have hInv : Inv (pushAll initQueue es) := Inv_pushAll es initQueue Inv_init
  have hfp : findQueue (pushAll initQueue es).queues_of_events_ordered_by_fd_ p.1
      = some p.2 := findQueue_of_mem_nodup hInv.nodup (Prod.mk.eta.symm ▸ hp)
  have hc : queueContents (pushAll initQueue es) p.1 = p.2 := by
    rw [queueContents, hfp]
    rfl
  rw [queueContents_pushAll es initQueue p.1] at hc
  have hcinit : queueContents initQueue p.1 = [] := rfl
  rw [hcinit, List.nil_append] at hc
  rw [← hc]
  exact hm p.1

theorem drainLoop_succ_none (fuel : Nat) (s : PerfEventQueue)
    (h : (PopEvent s).1 = none) : drainLoop (fuel + 1) s = ([], s) := by
  rw [drainLoop]
  cases hp : PopEvent s with
  | mk o s' =>
    rw [hp] at h
    cases o with
    | none => rfl
    | some e => exact absurd h (by simp)

theorem drainLoop_succ_some (fuel : Nat) {s s' : PerfEventQueue} {e : PerfEvent}
    (h : PopEvent s = (some e, s')) :
    drainLoop (fuel + 1) s =
      (e :: (drainLoop fuel s').1, (drainLoop fuel s').2) := by
  rw [drainLoop, h]

theorem drainLoop_sub (fuel : Nat) :
    ∀ (s : PerfEventQueue) (x : PerfEvent), x ∈ (drainLoop fuel s).1 →
      x ∈ allEvents s := by
  induction fuel with
  | zero =>
    intro s x hx
    simp [drainLoop] at hx
  | succ fuel ih =>
    intro s x hx
    cases hp : PopEvent s with
    | mk o s' =>
      cases o with
      | none =>
        rw [drainLoop_succ_none fuel s (by rw [hp])] at hx
        simp at hx
      | some e =>
        rw [drainLoop_succ_some fuel hp] at hx
        have hfst : (PopEvent s).1 = some e := by rw [hp]
        have hperm := allEvents_pop s e hfst
        have hs2 : (PopEvent s).2 = s' := by rw [hp]
        rw [hs2] at hperm
        rcases List.mem_cons.mp hx with h1 | h1
        · subst h1
          exact hperm.mem_iff.mp (List.mem_cons_self _ _)
        · exact hperm.mem_iff.mp (List.mem_cons_of_mem _ (ih s' x h1))

theorem drainLoop_main (fuel : Nat) :
    ∀ s : PerfEventQueue, Inv s → (allEvents s).length ≤ fuel →
      (drainLoop fuel s).1.Perm (allEvents s) ∧
        allEvents (drainLoop fuel s).2 = [] ∧ Inv (drainLoop fuel s).2 := by
  induction fuel with
  | zero =>
    intro s hInv hlen
    have hnil : allEvents s = [] :=
      List.eq_nil_of_length_eq_zero (Nat.le_zero.mp hlen)
    refine ⟨?_, ?_, hInv⟩
    · rw [hnil]
      exact List.Perm.refl _
    · exact hnil
  | succ fuel ih =>
    intro s hInv hlen
    cases hp : PopEvent s with
    | mk o s' =>
      cases o with
      | none =>
        have hfst : (PopEvent s).1 = none := by rw [hp]
        have hnil : allEvents s = [] := (PopEvent_none_iff_allEvents hInv).mp hfst
        rw [drainLoop_succ_none fuel s hfst]
        refine ⟨?_, hnil, hInv⟩
        rw [hnil]
      | some e =>
        rw [drainLoop_succ_some fuel hp]
        have hfst : (PopEvent s).1 = some e := by rw [hp]
        have hperm := allEvents_pop s e hfst
        have hs2 : (PopEvent s).2 = s' := by rw [hp]
        rw [hs2] at hperm
        have hInv' : Inv s' := hs2 ▸ Inv_pop s hInv
        have hlen' : (allEvents s').length ≤ fuel := by
          have hle := hperm.length_eq
          simp only [List.length_cons] at hle
          omega
        obtain ⟨ih1, ih2, ih3⟩ := ih s' hInv' hlen'
        exact ⟨(ih1.cons e).trans hperm, ih2, ih3⟩

theorem drainLoop_sorted (fuel : Nat) :
    ∀ s : PerfEventQueue, Inv s → QueuesSorted s →
      List.Pairwise tsLE (drainLoop fuel s).1 := by
  induction fuel with
  | zero =>
    intro s hInv hs
    simp [drainLoop]
  | succ fuel ih =>
    intro s hInv hs
    cases hp : PopEvent s with
    | mk o s' =>
      cases o with
      | none =>
        rw [drainLoop_succ_none fuel s (by rw [hp])]
        simp
      | some e =>
        rw [drainLoop_succ_some fuel hp]
        have hfst : (PopEvent s).1 = some e := by rw [hp]
        have hperm := allEvents_pop s e hfst
        have hs2 : (PopEvent s).2 = s' := by rw [hp]
        rw [hs2] at hperm
        have hInv' : Inv s' := hs2 ▸ Inv_pop s hInv
        have hs' : QueuesSorted s' := hs2 ▸ QS_pop s hs
        apply List.Pairwise.cons
        · intro x hx
          have hxs : x ∈ allEvents s :=
            hperm.mem_iff.mp (List.mem_cons_of_mem _ (drainLoop_sub fuel s' x hx))
          have hTe : (TopEvent s).1 = some e := by
            rw [← PopEvent_fst_eq_TopEvent_fst]
            exact hfst
          exact top_min hInv hs hTe x hxs
        · exact ih s' hInv' hs'

theorem queueContents_nil_of_allEvents_nil {s : PerfEventQueue} (h : Inv s)
    (hn : allEvents s = []) (fd : Nat) : queueContents s fd = [] := by
  have hreg : s.queues_of_events_ordered_by_fd_ = [] := by
    rw [allEvents] at hn
    exact (flatten_nil_iff h).mp (List.append_eq_nil.mp hn).1
  rw [queueContents, hreg]
  rfl

theorem ite_cond_true {α : Sort u_1} {c : Bool} (h : c = true) (a b : α) :
    (if c = true then a else b) = a := by
  rw [h]
  simp

theorem ite_cond_false {α : Sort u_1} {c : Bool} (h : c = false) (a b : α) :
    (if c = true then a else b) = b := by
  rw [h]
  simp

theorem PopEvent_winner_cases (s : PerfEventQueue) (e : PerfEvent)
    (s' : PerfEventQueue) (hp : PopEvent s = (some e, s')) :
    (∃ t, s.priority_queue_of_events_not_ordered_by_fd_ = e :: t ∧
      s' = { s with
        priority_queue_of_events_not_ordered_by_fd_ :=
          heapPopRoot PerfEvent.timestamp
            s.priority_queue_of_events_not_ordered_by_fd_ }) ∨
    (∃ fd₀ th r, s.heap_of_queues_of_events_ordered_by_fd_ = fd₀ :: th ∧
      findQueue s.queues_of_events_ordered_by_fd_ fd₀ = some (e :: r) ∧
      s' = popFromOrdered s) := by
  cases hto : topOrdered s with
  | none =>
    cases hpq : s.priority_queue_of_events_not_ordered_by_fd_ with
    | nil =>
      rw [PopEvent_empty hto hpq] at hp
      exact absurd (congrArg Prod.fst hp) (by simp)
    | cons u t =>
      rw [PopEvent_unordered_only hto hpq] at hp
      have heu : u = e := Option.some_injective _ (congrArg Prod.fst hp)
      refine Or.inl ⟨t, ?_, ?_⟩
      · rw [heu]
      · have h2 := (congrArg Prod.snd hp).symm
        rw [hpq] at h2
        exact h2
  | some e₀ =>
    obtain ⟨fd₀, th, r, hh, hf⟩ := topOrdered_some_elim hto
    cases hpq : s.priority_queue_of_events_not_ordered_by_fd_ with
    | nil =>
      rw [PopEvent_ordered_only hto hpq] at hp
      have he0 : e₀ = e := Option.some_injective _ (congrArg Prod.fst hp)
      subst he0
      exact Or.inr ⟨fd₀, th, r, hh, hf, (congrArg Prod.snd hp).symm⟩
    | cons u t =>
      by_cases hlt : u.timestamp < e₀.timestamp
      · rw [PopEvent_both_unordered hto hpq hlt] at hp
        have heu : u = e := Option.some_injective _ (congrArg Prod.fst hp)
        refine Or.inl ⟨t, ?_, ?_⟩
        · rw [heu]
        · have h2 := (congrArg Prod.snd hp).symm
          rw [hpq] at h2
          exact h2
      · rw [PopEvent_both_ordered hto hpq hlt] at hp
        have he0 : e₀ = e := Option.some_injective _ (congrArg Prod.fst hp)
        subst he0
        exact Or.inr ⟨fd₀, th, r, hh, hf, (congrArg Prod.snd hp).symm⟩

theorem queueContents_popFromOrdered_self {s : PerfEventQueue} (hInv : Inv s)
    {fd₀ : Nat} {th : List Nat} {e₀ : PerfEvent} {r : List PerfEvent}
    (hh : s.heap_of_queues_of_events_ordered_by_fd_ = fd₀ :: th)
    (hf : findQueue s.queues_of_events_ordered_by_fd_ fd₀ = some (e₀ :: r)) :
    queueContents (popFromOrdered s) fd₀ = r := by
  cases r with
  | nil =>
    rw [popFromOrdered_erase hh hf]
    show (findQueue (eraseQueue s.queues_of_events_ordered_by_fd_ fd₀) fd₀).getD []
      = []
    rw [findQueue_erase_self _ _ hInv.nodup]
    rfl
  | cons y r' =>
    rw [popFromOrdered_tail hh hf]
    show (findQueue (setQueue s.queues_of_events_ordered_by_fd_ fd₀ (y :: r'))
      fd₀).getD [] = y :: r'
    rw [findQueue_set_self]
    rfl

theorem queueContents_popFromOrdered_other {s : PerfEventQueue} {fd fd₀ : Nat}
    {th : List Nat} {e₀ : PerfEvent} {r : List PerfEvent}
    (hh : s.heap_of_queues_of_events_ordered_by_fd_ = fd₀ :: th)
    (hf : findQueue s.queues_of_events_ordered_by_fd_ fd₀ = some (e₀ :: r))
    (hne : fd ≠ fd₀) :
    queueContents (popFromOrdered s) fd = queueContents s fd := by
  cases r with
  | nil =>
    rw [popFromOrdered_erase hh hf]
    show (findQueue (eraseQueue s.queues_of_events_ordered_by_fd_ fd₀) fd).getD []
      = queueContents s fd
    rw [findQueue_erase_other _ hne]
    rfl
  | cons y r' =>
    rw [popFromOrdered_tail hh hf]
    show (findQueue (setQueue s.queues_of_events_ordered_by_fd_ fd₀ (y :: r'))
      fd).getD [] = queueContents s fd
    rw [findQueue_set_other _ _ hne]
    rfl

theorem drainLoop_proj (fuel : Nat) :
    ∀ (s : PerfEventQueue) (fd : Nat), Inv s → (allEvents s).length ≤ fuel →
      (drainLoop fuel s).1.filter (fun e => e.ordered && e.origin == fd) =
        queueContents s fd := by
  induction fuel with
  | zero =>
    intro s fd hInv hlen
    have hnil : allEvents s = [] :=
      List.eq_nil_of_length_eq_zero (Nat.le_zero.mp hlen)
    rw [queueContents_nil_of_allEvents_nil hInv hnil fd]
    rfl
  | succ fuel ih =>
    intro s fd hInv hlen
    cases hp : PopEvent s with
    | mk o s' =>
      cases o with
      | none =>
        have hfst : (PopEvent s).1 = none := by rw [hp]
        have hnil : allEvents s = [] :=
          (PopEvent_none_iff_allEvents hInv).mp hfst
        rw [drainLoop_succ_none fuel s hfst,
          queueContents_nil_of_allEvents_nil hInv hnil fd]
        rfl
      | some e =>
        rw [drainLoop_succ_some fuel hp]
        have hfst : (PopEvent s).1 = some e := by rw [hp]
        have hperm := allEvents_pop s e hfst
        have hs2 : (PopEvent s).2 = s' := by rw [hp]
        rw [hs2] at hperm
        have hInv' : Inv s' := hs2 ▸ Inv_pop s hInv
        have hlen' : (allEvents s').length ≤ fuel := by
          have hle := hperm.length_eq
          simp only [List.length_cons] at hle
          omega
        have hproj := ih s' fd hInv' hlen'
        rw [List.filter_cons]
        have hcase := PopEvent_winner_cases s e s' hp
        rcases hcase with ⟨t, hpq, hq⟩ | ⟨fd₀, th, r, hh, hf, hq⟩
        · have hordf : e.ordered = false :=
            hInv.pqun e (hpq ▸ List.mem_cons_self _ _)
          have hcond : (e.ordered && e.origin == fd) = false := by
            rw [hordf]
            rfl
          rw [ite_cond_false hcond, hproj, hq]
          rfl
        · have hqm := hInv.qmatch (fd₀, e :: r) (mem_of_findQueue_some hf) e
            (List.mem_cons_self _ _)
          have hcont : queueContents s fd₀ = e :: r := by
            rw [queueContents, hf]
            rfl
          by_cases hfd : fd = fd₀
          · subst hfd
            have hcond : (e.ordered && e.origin == fd) = true := by
              rw [hqm.2, hqm.1]
              simp
            rw [ite_cond_true hcond, hproj, hq,
              queueContents_popFromOrdered_self hInv hh hf, hcont]
          · have hcond : (e.ordered && e.origin == fd) = false := by
              rw [hqm.2, hqm.1]
              simp only [Bool.true_and]
              exact beq_eq_false_iff_ne.mpr (fun hc => hfd hc.symm)
            rw [ite_cond_false hcond, hproj, hq,
              queueContents_popFromOrdered_other hh hf hfd]

theorem TopEvent_mem (s : PerfEventQueue) (e : PerfEvent)
    (he : (TopEvent s).1 = some e) : e ∈ allEvents s := by
  have hordmem : ∀ e₀, topOrdered s = some e₀ →
      e₀ ∈ (s.queues_of_events_ordered_by_fd_.map Prod.snd).flatten := by
    intro e₀ hto
    obtain ⟨fd, th, r, hh, hf⟩ := topOrdered_some_elim hto
    exact List.mem_flatten.mpr
      ⟨e₀ :: r,
        List.mem_map.mpr ⟨(fd, e₀ :: r), mem_of_findQueue_some hf, rfl⟩,
        List.mem_cons_self _ _⟩
  cases hto : topOrdered s with
  | none =>
    cases hpq : s.priority_queue_of_events_not_ordered_by_fd_ with
    | nil =>
      rw [(TopEvent_fst_none_iff_struct s).mpr ⟨hto, hpq⟩] at he
      exact Option.noConfusion he
    | cons u t =>
      have hTop : (TopEvent s).1 = some u := by simp [TopEvent, hto, hpq]
      rw [hTop] at he
      have heu : u = e := Option.some_injective _ he
      subst heu
      exact List.mem_append.mpr (Or.inr (hpq ▸ List.mem_cons_self _ _))
  | some e₀ =>
    cases hpq : s.priority_queue_of_events_not_ordered_by_fd_ with
    | nil =>
      have hTop : (TopEvent s).1 = some e₀ := by simp [TopEvent, hto, hpq]
      rw [hTop] at he
      have heu : e₀ = e := Option.some_injective _ he
      subst heu
      exact List.mem_append.mpr (Or.inl (hordmem e₀ hto))
    | cons u t =>
      by_cases hlt : u.timestamp < e₀.timestamp
      · have hTop : (TopEvent s).1 = some u := by simp [TopEvent, hto, hpq, hlt]
        rw [hTop] at he
        have heu : u = e := Option.some_injective _ he
        subst heu
        exact List.mem_append.mpr (Or.inr (hpq ▸ List.mem_cons_self _ _))
      · have hTop : (TopEvent s).1 = some e₀ := by simp [TopEvent, hto, hpq, hlt]
        rw [hTop] at he
        have heu : e₀ = e := Option.some_injective _ he
        subst heu
        exact List.mem_append.mpr (Or.inl (hordmem e₀ hto))

theorem HasEvent_push {s : PerfEventQueue} (hInv : Inv s) (e : PerfEvent) :
    HasEvent (PushEvent s e) = true := by
  have hInv' := Inv_push s e hInv
  have hne : allEvents (PushEvent s e) ≠ [] := by
    intro hc
    have hlen := (allEvents_push s e).length_eq
    rw [hc] at hlen
    simp at hlen
  cases hb : HasEvent (PushEvent s e) with
  | false =>
    exfalso
    exact hne ((allEvents_nil_iff hInv').mpr ((HasEvent_false_iff _).mp hb))
  | true => rfl

/-- C1, counterexample: the claim quantifies over any interleaving of pushes and
pops, but popping a record and then pushing a smaller-timestamped record makes the
next pop return a smaller timestamp: with only untrusted pushes (so every per-source
ordering hypothesis holds vacuously) the interleaving push 10, pop, push 5, pop
returns 10 then 5, which is decreasing. -/
theorem C1_interleaved_counterexample :
    SrcMonotone (pushesOf
      [EngineOp.push ⟨10, 0, false, 0⟩, EngineOp.pop,
        EngineOp.push ⟨5, 1, false, 1⟩, EngineOp.pop]) ∧
    (runOps initQueue
      [EngineOp.push ⟨10, 0, false, 0⟩, EngineOp.pop,
        EngineOp.push ⟨5, 1, false, 1⟩, EngineOp.pop]).2 =
      [⟨10, 0, false, 0⟩, ⟨5, 1, false, 1⟩] ∧
    ¬ List.Chain' tsLE
      (runOps initQueue
        [EngineOp.push ⟨10, 0, false, 0⟩, EngineOp.pop,
          EngineOp.push ⟨5, 1, false, 1⟩, EngineOp.pop]).2 := by
  refine ⟨?_, by decide, ?_⟩
  · intro f
    exact List.Pairwise.nil
  · intro hc
    have hout : (runOps initQueue
        [EngineOp.push ⟨10, 0, false, 0⟩, EngineOp.pop,
          EngineOp.push ⟨5, 1, false, 1⟩, EngineOp.pop]).2 =
        [⟨10, 0, false, 0⟩, ⟨5, 1, false, 1⟩] := by decide
    rw [hout] at hc
    exact absurd (List.chain'_cons.mp hc).1 (by decide)

/-- C1 (amended): after any sequence of pushes in which the records of each trusted
source arrive with non-decreasing timestamps (untrusted records in any order), the
records returned by successive pop calls, with no pushes interleaved, carry
non-decreasing timestamps. -/
theorem C1_global_ordering (es : List PerfEvent) (hm : SrcMonotone es) :
    List.Chain' tsLE (drainAll (pushAll initQueue es)).1 := by
  have hInv := Inv_pushAll es initQueue Inv_init
  have hqs := QS_pushAll_init es hm
  have hpw := drainLoop_sorted (allEvents (pushAll initQueue es)).length
    (pushAll initQueue es) hInv hqs
  rw [drainAll]
  exact List.chain'_iff_pairwise.mpr hpw

theorem C1_global_ordering_witness :
    SrcMonotone [⟨10, 1, true, 0⟩, ⟨20, 1, true, 1⟩, ⟨5, 9, false, 2⟩] ∧
    List.Chain' tsLE
      (drainAll (pushAll initQueue
        [⟨10, 1, true, 0⟩, ⟨20, 1, true, 1⟩, ⟨5, 9, false, 2⟩])).1 := by
  have hm : SrcMonotone [⟨10, 1, true, 0⟩, ⟨20, 1, true, 1⟩, ⟨5, 9, false, 2⟩] := by
    intro f
    by_cases hf : f = 1
    · subst hf
      decide
    · have h1 : ((1 : Nat) == f) = false :=
        beq_eq_false_iff_ne.mpr (fun hc => hf hc.symm)
      simp [List.filter_cons, h1]
  exact ⟨hm, C1_global_ordering _ hm⟩

/-- C2: after pushing any list of records into the fresh engine and performing no
pops, draining pops exactly one record per push (the drain performs one successful
pop per owned record), the multiset of popped records equals the multiset of pushed
records, and the next pop after the drain reports Empty (returns none). -/
theorem C2_conservation (es : List PerfEvent) :
    (drainAll (pushAll initQueue es)).1.Perm es ∧
    (drainAll (pushAll initQueue es)).1.length = es.length ∧
    (PopEvent (drainAll (pushAll initQueue es)).2).1 = none := by
  have hInv := Inv_pushAll es initQueue Inv_init
  obtain ⟨h1, h2, h3⟩ := drainLoop_main (allEvents (pushAll initQueue es)).length
    (pushAll initQueue es) hInv (Nat.le_refl _)
  have hperm0 : (allEvents (pushAll initQueue es)).Perm es := by
    have hp := allEvents_pushAll es initQueue
    have hinit : allEvents initQueue = [] := rfl
    rw [hinit, List.append_nil] at hp
    exact hp
  rw [drainAll]
  refine ⟨h1.trans hperm0, (h1.trans hperm0).length_eq, ?_⟩
  exact (PopEvent_none_iff_allEvents h3).mpr h2

/-- C3: in every reachable state, has_pending (HasEvent) is false iff peek
(TopEvent) reports Empty, iff pop (PopEvent) reports Empty; HasEvent is true
immediately after any push; and popping the last pending record (a state owning
exactly one record) makes HasEvent false. -/
theorem C3_emptiness (s : PerfEventQueue) (e : PerfEvent) (h : Reachable s) :
    (HasEvent s = false ↔ (TopEvent s).1 = none) ∧
    ((TopEvent s).1 = none ↔ (PopEvent s).1 = none) ∧
    HasEvent (PushEvent s e) = true ∧
    ((allEvents s).length = 1 → HasEvent (PopEvent s).2 = false) := by
  have hInv := Reachable_inv h
  refine ⟨(TopEvent_none_iff_HasEvent hInv).symm, ?_, HasEvent_push hInv e, ?_⟩
  · rw [PopEvent_fst_eq_TopEvent_fst]
  · intro hlen1
    have hne : allEvents s ≠ [] := by
      intro hc
      rw [hc] at hlen1
      simp at hlen1
    cases hp : (PopEvent s).1 with
    | none => exact absurd ((PopEvent_none_iff_allEvents hInv).mp hp) hne
    | some e' =>
      have hperm := allEvents_pop s e' hp
      have hlen := hperm.length_eq
      have hInv' : Inv (PopEvent s).2 := Inv_pop s hInv
      have hnil : allEvents (PopEvent s).2 = [] := by
        apply List.eq_nil_of_length_eq_zero
        simp only [List.length_cons] at hlen
        omega
      exact (HasEvent_false_iff _).mpr ((allEvents_nil_iff hInv').mp hnil)

theorem C3_emptiness_witness :
    Reachable (PushEvent initQueue ⟨5, 1, true, 0⟩) ∧
    ((HasEvent (PushEvent initQueue ⟨5, 1, true, 0⟩) = false ↔
        (TopEvent (PushEvent initQueue ⟨5, 1, true, 0⟩)).1 = none) ∧
      ((TopEvent (PushEvent initQueue ⟨5, 1, true, 0⟩)).1 = none ↔
        (PopEvent (PushEvent initQueue ⟨5, 1, true, 0⟩)).1 = none) ∧
      HasEvent (PushEvent (PushEvent initQueue ⟨5, 1, true, 0⟩) ⟨7, 2, true, 1⟩)
        = true ∧
      ((allEvents (PushEvent initQueue ⟨5, 1, true, 0⟩)).length = 1 →
        HasEvent (PopEvent (PushEvent initQueue ⟨5, 1, true, 0⟩)).2 = false)) :=
  ⟨Reachable.push _ Reachable.init,
    C3_emptiness (PushEvent initQueue ⟨5, 1, true, 0⟩) ⟨7, 2, true, 1⟩
      (Reachable.push _ Reachable.init)⟩

/-- C4: in every reachable state, a file descriptor is a key of the registry map
iff its per-source queue is non-empty, iff it occurs exactly once in the heap of
queues. -/
theorem C4_registry_heap_coupling (s : PerfEventQueue) (fd : Nat)
    (h : Reachable s) :
    ((fd ∈ s.queues_of_events_ordered_by_fd_.map Prod.fst) ↔
      queueContents s fd ≠ []) ∧
    (queueContents s fd ≠ [] ↔
      s.heap_of_queues_of_events_ordered_by_fd_.count fd = 1) := by
  have hInv := Reachable_inv h
  have hmem_iff : fd ∈ s.queues_of_events_ordered_by_fd_.map Prod.fst ↔
      queueContents s fd ≠ [] := by
    constructor
    · intro hmem
      obtain ⟨q, hq⟩ := (mem_keys_iff_findQueue _ _).mp hmem
      have hqne := hInv.qne _ (mem_of_findQueue_some hq)
      rw [queueContents, hq]
      simpa using hqne
    · intro hne
      cases hq : findQueue s.queues_of_events_ordered_by_fd_ fd with
      | none =>
        rw [queueContents, hq] at hne
        exact absurd rfl hne
      | some q => exact (mem_keys_iff_findQueue _ _).mpr ⟨q, hq⟩
  refine ⟨hmem_iff, ?_, ?_⟩
  · intro hne
    have hmem := hmem_iff.mpr hne
    rw [hInv.hperm.count_eq]
    exact List.count_eq_one_of_mem hInv.nodup hmem
  · intro hcount
    have hmemh : fd ∈ s.heap_of_queues_of_events_ordered_by_fd_ :=
      List.count_pos_iff.mp (by rw [hcount]; omega)
    exact hmem_iff.mp ((hInv.hperm.mem_iff).mp hmemh)

theorem C4_registry_heap_coupling_witness :
    Reachable (PushEvent initQueue ⟨5, 1, true, 0⟩) ∧
    (((1 : Nat) ∈
        (PushEvent initQueue
          ⟨5, 1, true, 0⟩).queues_of_events_ordered_by_fd_.map Prod.fst ↔
      queueContents (PushEvent initQueue ⟨5, 1, true, 0⟩) 1 ≠ []) ∧
    (queueContents (PushEvent initQueue ⟨5, 1, true, 0⟩) 1 ≠ [] ↔
      (PushEvent initQueue
        ⟨5, 1, true, 0⟩).heap_of_queues_of_events_ordered_by_fd_.count 1 = 1)) :=
  ⟨Reachable.push _ Reachable.init,
    C4_registry_heap_coupling (PushEvent initQueue ⟨5, 1, true, 0⟩) 1
      (Reachable.push _ Reachable.init)⟩

/-- C5: in every reachable state whose fallback priority queue is non-empty, the
root of that queue is itself a pending untrusted record and its timestamp is minimal
among all pending untrusted records. -/
theorem C5_fallback_root_min (s : PerfEventQueue) (x : PerfEvent) (h : Reachable s)
    (hne : s.priority_queue_of_events_not_ordered_by_fd_ ≠ [])
    (hx : x ∈ allEvents s) (hu : x.ordered = false) :
    (s.priority_queue_of_events_not_ordered_by_fd_.headD default) ∈ allEvents s ∧
    (s.priority_queue_of_events_not_ordered_by_fd_.headD default).ordered = false ∧
    (s.priority_queue_of_events_not_ordered_by_fd_.headD default).timestamp ≤
      x.timestamp := by
  have hInv := Reachable_inv h
  cases hpq : s.priority_queue_of_events_not_ordered_by_fd_ with
  | nil => exact absurd hpq hne
  | cons u t =>
    have humem : u ∈ s.priority_queue_of_events_not_ordered_by_fd_ := by
      rw [hpq]
      exact List.mem_cons_self _ _
    show u ∈ allEvents s ∧ u.ordered = false ∧ u.timestamp ≤ x.timestamp
    refine ⟨List.mem_append.mpr (Or.inr humem), hInv.pqun u humem, ?_⟩
    rcases List.mem_append.mp hx with hxf | hxp
    · exfalso
      obtain ⟨q, hqmem, hxq⟩ := List.mem_flatten.mp hxf
      obtain ⟨p, hpmem, hpq2⟩ := List.mem_map.mp hqmem
      have hxo := (hInv.qmatch p hpmem x (hpq2 ▸ hxq)).2
      rw [hu] at hxo
      exact Bool.noConfusion hxo
    · exact pq_top_min hInv hpq x hxp

theorem C5_fallback_root_min_witness :
    Reachable (PushEvent initQueue ⟨5, 9, false, 0⟩) ∧
    (PushEvent initQueue
      ⟨5, 9, false, 0⟩).priority_queue_of_events_not_ordered_by_fd_ ≠ [] ∧
    (⟨5, 9, false, 0⟩ : PerfEvent) ∈
      allEvents (PushEvent initQueue ⟨5, 9, false, 0⟩) ∧
    ((PushEvent initQueue
        ⟨5, 9, false, 0⟩).priority_queue_of_events_not_ordered_by_fd_.headD
          default) ∈ allEvents (PushEvent initQueue ⟨5, 9, false, 0⟩) ∧
    ((PushEvent initQueue
        ⟨5, 9, false, 0⟩).priority_queue_of_events_not_ordered_by_fd_.headD
          default).ordered = false ∧
    ((PushEvent initQueue
        ⟨5, 9, false, 0⟩).priority_queue_of_events_not_ordered_by_fd_.headD
          default).timestamp ≤ (⟨5, 9, false, 0⟩ : PerfEvent).timestamp := by
  have hr : Reachable (PushEvent initQueue ⟨5, 9, false, 0⟩) :=
    Reachable.push _ Reachable.init
  have hc := C5_fallback_root_min (PushEvent initQueue ⟨5, 9, false, 0⟩)
    ⟨5, 9, false, 0⟩ hr (by decide) (by decide) (by decide)
  exact ⟨hr, by decide, by decide, hc.1, hc.2.1, hc.2.2⟩

/-- C6: pushing a trusted record whose source queue is already non-empty leaves the
heap of queues (contents and arrangement) and the fallback queue entirely
unchanged; only that source's queue gains the record at its back, every other
registry entry being untouched. -/
theorem C6_push_existing_source_frame (s : PerfEventQueue) (e : PerfEvent)
    (q : List PerfEvent) (ho : e.ordered = true)
    (hq : findQueue s.queues_of_events_ordered_by_fd_ e.origin = some q)
    (hne : q ≠ []) :
    (PushEvent s e).heap_of_queues_of_events_ordered_by_fd_ =
      s.heap_of_queues_of_events_ordered_by_fd_ ∧
    (PushEvent s e).priority_queue_of_events_not_ordered_by_fd_ =
      s.priority_queue_of_events_not_ordered_by_fd_ ∧
    findQueue (PushEvent s e).queues_of_events_ordered_by_fd_ e.origin =
      some (q ++ [e]) ∧
    (∀ fd, fd ≠ e.origin →
      findQueue (PushEvent s e).queues_of_events_ordered_by_fd_ fd =
        findQueue s.queues_of_events_ordered_by_fd_ fd) := by
  cases q with
  | nil => exact absurd rfl hne
  | cons x t =>
    rw [PushEvent_trusted_existing s e ho hq]
    exact ⟨rfl, rfl, findQueue_set_self _ _ _,
      fun fd hfd => findQueue_set_other _ _ hfd⟩

theorem C6_push_existing_source_frame_witness :
    (⟨20, 1, true, 1⟩ : PerfEvent).ordered = true ∧
    findQueue (PushEvent initQueue
        ⟨10, 1, true, 0⟩).queues_of_events_ordered_by_fd_
      (⟨20, 1, true, 1⟩ : PerfEvent).origin = some [⟨10, 1, true, 0⟩] ∧
    ([⟨10, 1, true, 0⟩] : List PerfEvent) ≠ [] ∧
    (PushEvent (PushEvent initQueue ⟨10, 1, true, 0⟩)
        ⟨20, 1, true, 1⟩).heap_of_queues_of_events_ordered_by_fd_ =
      (PushEvent initQueue
        ⟨10, 1, true, 0⟩).heap_of_queues_of_events_ordered_by_fd_ := by
  have hc := C6_push_existing_source_frame (PushEvent initQueue ⟨10, 1, true, 0⟩)
    ⟨20, 1, true, 1⟩ [⟨10, 1, true, 0⟩] (by decide) (by decide) (by decide)
  exact ⟨by decide, by decide, by decide, hc.1⟩

/-- C7: peek (TopEvent) never mutates the engine state: the state it returns is the
input state, the view it returns is of a record the engine currently owns, and
neither a subsequent pop nor a repeated peek is affected by having peeked. -/
theorem C7_peek_no_mutation (s : PerfEventQueue) (e : PerfEvent)
    (he : (TopEvent s).1 = some e) :
    (TopEvent s).2 = s ∧ e ∈ allEvents s ∧
    PopEvent (TopEvent s).2 = PopEvent s ∧
    (TopEvent (TopEvent s).2).1 = (TopEvent s).1 := by
  refine ⟨TopEvent_state s, TopEvent_mem s e he, ?_, ?_⟩
  · rw [TopEvent_state]
  · rw [TopEvent_state]

theorem C7_peek_no_mutation_witness :
    (TopEvent (PushEvent initQueue ⟨5, 1, true, 0⟩)).1 =
      some ⟨5, 1, true, 0⟩ ∧
    ((TopEvent (PushEvent initQueue ⟨5, 1, true, 0⟩)).2 =
        PushEvent initQueue ⟨5, 1, true, 0⟩ ∧
      (⟨5, 1, true, 0⟩ : PerfEvent) ∈
        allEvents (PushEvent initQueue ⟨5, 1, true, 0⟩) ∧
      PopEvent (TopEvent (PushEvent initQueue ⟨5, 1, true, 0⟩)).2 =
        PopEvent (PushEvent initQueue ⟨5, 1, true, 0⟩) ∧
      (TopEvent (TopEvent (PushEvent initQueue ⟨5, 1, true, 0⟩)).2).1 =
        (TopEvent (PushEvent initQueue ⟨5, 1, true, 0⟩)).1) :=
  ⟨by decide,
    C7_peek_no_mutation (PushEvent initQueue ⟨5, 1, true, 0⟩) ⟨5, 1, true, 0⟩
      (by decide)⟩

/-- C8: pop returns ownership of exactly the record peek returns a view of: in
every state, the record component of PopEvent equals the record component of
TopEvent, both selecting the winning side by the same comparison. -/
theorem C8_pop_returns_peeked (s : PerfEventQueue) :
    (PopEvent s).1 = (TopEvent s).1 :=
  PopEvent_fst_eq_TopEvent_fst s

/-- C9: the engine is deterministic: identical operation sequences from the fresh
engine produce identical final states and identical pop outputs; in particular,
when the trusted front and the untrusted root carry equal timestamps, the trusted
record is the one popped, every time. -/
theorem C9_tie_break_determinism (ops₁ ops₂ : List EngineOp) (s : PerfEventQueue)
    (e : PerfEvent) (heq : ops₁ = ops₂) (hto : topOrdered s = some e)
    (hne : s.priority_queue_of_events_not_ordered_by_fd_ ≠ [])
    (htie : (s.priority_queue_of_events_not_ordered_by_fd_.headD
      default).timestamp = e.timestamp) :
    runOps initQueue ops₁ = runOps initQueue ops₂ ∧ (PopEvent s).1 = some e := by
  refine ⟨by rw [heq], ?_⟩
  cases hpq : s.priority_queue_of_events_not_ordered_by_fd_ with
  | nil => exact absurd hpq hne
  | cons u t =>
    rw [hpq] at htie
    have hu : u.timestamp = e.timestamp := htie
    have hnlt : ¬ u.timestamp < e.timestamp := by
      rw [hu]
      exact lt_irrefl _
    rw [PopEvent_both_ordered hto hpq hnlt]

theorem C9_tie_break_determinism_witness :
    ([EngineOp.pop] = [EngineOp.pop]) ∧
    topOrdered (pushAll initQueue [⟨5, 1, true, 0⟩, ⟨5, 9, false, 1⟩]) =
      some ⟨5, 1, true, 0⟩ ∧
    (pushAll initQueue
      [⟨5, 1, true, 0⟩, ⟨5, 9, false, 1⟩]).priority_queue_of_events_not_ordered_by_fd_
      ≠ [] ∧
    ((pushAll initQueue
        [⟨5, 1, true, 0⟩, ⟨5, 9, false, 1⟩]).priority_queue_of_events_not_ordered_by_fd_.headD
        default).timestamp = (⟨5, 1, true, 0⟩ : PerfEvent).timestamp ∧
    (PopEvent (pushAll initQueue [⟨5, 1, true, 0⟩, ⟨5, 9, false, 1⟩])).1 =
      some ⟨5, 1, true, 0⟩ := by
  have hc := C9_tie_break_determinism [EngineOp.pop] [EngineOp.pop]
    (pushAll initQueue [⟨5, 1, true, 0⟩, ⟨5, 9, false, 1⟩]) ⟨5, 1, true, 0⟩ rfl
    (by decide) (by decide) (by decide)
  exact ⟨rfl, by decide, by decide, by decide, hc.2⟩

/-- C10: for every push sequence, the subsequence of drained records belonging to a
given source (its trusted, ordered-within-fd records) equals, in order, the
subsequence of pushed records of that source: per-source FIFO order is preserved,
in particular for records of equal timestamps. -/
theorem C10_per_source_fifo (es : List PerfEvent) (fd : Nat) :
    (drainAll (pushAll initQueue es)).1.filter
      (fun e => e.ordered && e.origin == fd) =
    es.filter (fun e => e.ordered && e.origin == fd) := by
  have hInv := Inv_pushAll es initQueue Inv_init
  rw [drainAll, drainLoop_proj (allEvents (pushAll initQueue es)).length
    (pushAll initQueue es) fd hInv (Nat.le_refl _),
    queueContents_pushAll es initQueue fd]
  rfl

end orbit_linux_tracing
